import Mathlib

/-!
# Verification of the venvkiller core (finder + cleaner)

A shallow embedding of `venvkiller/finder.py` and `venvkiller/cleaner.py`
over an explicit filesystem tree, together with proofs of the testable
properties stated in the design spec.

The filesystem is a finite tree of named entries.  Files carry a size and
two fault flags (`statOk`: `stat()` succeeds; `unlinkOk`: `unlink()`
succeeds).  Directories carry a child list and two fault flags (`walkOk`:
listing the directory — `iterdir` / `os.walk`'s `scandir` — succeeds;
`rmdirOk`: `rmdir()` succeeds when the directory is empty).  The model is a
fixed snapshot: no concurrent mutation, no symlinks, sizes and flags are
stable for the duration of one operation.
-/

namespace Venvkiller

mutual
inductive FsEntry where
  | file (size : Nat) (statOk : Bool) (unlinkOk : Bool)
  | dir (children : FsList) (walkOk : Bool) (rmdirOk : Bool)
  deriving DecidableEq, Repr
inductive FsList where
  | nil
  | cons (name : String) (entry : FsEntry) (rest : FsList)
  deriving DecidableEq, Repr
end

/-- Non-mutual induction principle for `FsList` (no hypothesis on entries). -/
theorem fsList_ind (Q : FsList → Prop) (h0 : Q .nil)
    (h1 : ∀ n e tl, Q tl → Q (.cons n e tl)) (l : FsList) : Q l :=
  @FsList.rec (fun _ => True) Q (fun _ _ _ => trivial) (fun _ _ _ _ => trivial)
    h0 (fun n e tl _ ih => h1 n e tl ih) l

/-- Joint structural induction over the mutual filesystem tree. -/
theorem fs_mutual_ind (P : FsEntry → Prop) (Q : FsList → Prop)
    (hfile : ∀ sz s u, P (.file sz s u))
    (hdir : ∀ cs w r, Q cs → P (.dir cs w r))
    (hnil : Q .nil)
    (hcons : ∀ n e tl, P e → Q tl → Q (.cons n e tl)) :
    (∀ e, P e) ∧ (∀ l, Q l) :=
  ⟨fun e => @FsEntry.rec P Q hfile (fun cs w r ih => hdir cs w r ih) hnil
      (fun n e tl ihe ihl => hcons n e tl ihe ihl) e,
   fun l => @FsList.rec P Q hfile (fun cs w r ih => hdir cs w r ih) hnil
      (fun n e tl ihe ihl => hcons n e tl ihe ihl) l⟩

/-- True iff the entry is a directory (`Path.is_dir()`). -/
def isDirE : FsEntry → Bool
  | .file _ _ _ => false
  | .dir _ _ _ => true

/-- Child-name list of a directory listing. -/
def namesL : FsList → List String
  | .nil => []
  | .cons n _ tl => n :: namesL tl

/-- Empty-listing test (a directory with no remaining children). -/
def isNilL : FsList → Bool
  | .nil => true
  | .cons _ _ _ => false

mutual
/-- Resolve a relative path (list of components) below an entry.
First matching name wins; real filesystems have unique sibling names. -/
def lookupPath : FsEntry → List String → Option FsEntry
  | e, [] => some e
  | .file _ _ _, _ :: _ => none
  | .dir cs _ _, n :: rest => lookupChild cs n rest
def lookupChild : FsList → String → List String → Option FsEntry
  | .nil, _, _ => none
  | .cons m e tl, n, rest => if m = n then lookupPath e rest else lookupChild tl n rest
end

/-- Model of `Path.exists()` for a path relative to a root entry. -/
def existsAt (e : FsEntry) (p : List String) : Bool := (lookupPath e p).isSome

/-- Model of `Path.is_dir()` for a path relative to a root entry. -/
def isDirAt (e : FsEntry) (p : List String) : Bool :=
  match lookupPath e p with
  | some x => isDirE x
  | none => false

/-! ## finder.py -/

/-- The `VENV_IDENTIFIERS` set from `finder.py`, each identifier split into path
components (`'bin/activate'` is the relative path `bin/activate`). -/
def VENV_IDENTIFIERS : List (List String) :=
  [["pyvenv.cfg"], ["bin", "activate"], ["Scripts", "activate"],
   ["bin", "python"], ["Scripts", "python.exe"]]

/-- Model of `is_virtual_env` applied to the node the path resolves to:
the path is a directory and some identifier exists directly beneath it.
(The Python loop over the `VENV_IDENTIFIERS` set short-circuits on the first
hit; existence of any hit is order-independent.) -/
def is_virtual_env (e : FsEntry) : Bool :=
  isDirE e && VENV_IDENTIFIERS.any (fun m => existsAt e m)

/-- Model of `is_virtual_env(path)` for a path below a filesystem root. -/
def is_virtual_env_at (fs : FsEntry) (p : List String) : Bool :=
  match lookupPath fs p with
  | some e => is_virtual_env e
  | none => false

/-- ASCII lowercasing of one character (what `str.lower()` does on the
ASCII names compared against `.venv`/`.env`/`.virtualenv`). -/
def lowerChar (c : Char) : Char :=
  if 'A' ≤ c ∧ c ≤ 'Z' then Char.ofNat (c.toNat + 32) else c

/-- Model of `str.lower()` (ASCII fragment). -/
def strLower (s : String) : String := ⟨s.data.map lowerChar⟩

/-- Model of the test `str.startswith` applied to a dot. -/
def startsWithDot (s : String) : Bool := s.data.head? = some '.'

/-- The hidden-directory allow-list from `find_venvs_in_dir`. -/
def hiddenAllow : List String := [".venv", ".env", ".virtualenv"]

/-- Child-descent eligibility in `find_venvs_in_dir`: the item is a
directory, and it is either non-hidden or a hidden name on the allow-list. -/
def eligibleChild (n : String) (e : FsEntry) : Bool :=
  isDirE e &&
    ((startsWithDot n && decide (strLower n ∈ hiddenAllow)) || !startsWithDot n)

/-- Model of `Path.name`: last component, `""` for the filesystem root. -/
def pathName (p : List String) : String := p.getLastD ""

mutual
/-- Model of `find_venvs_in_dir(directory, max_depth, exclude_dirs)`.
`e` is the node the directory path resolves to, `path` the absolute path
(as components).  An unreadable directory (`walkOk = false`) models the
`PermissionError`/`OSError` swallowed around `iterdir`; a file models
`NotADirectoryError` from `iterdir`, likewise swallowed. -/
def find_venvs_in_dir (e : FsEntry) (path : List String) (maxDepth : Int)
    (exclude : List String) : List (List String) :=
  if pathName path ∈ exclude then []
  else if is_virtual_env e then [path]
  else if maxDepth ≤ 0 then []
  else
    match e with
    | .file _ _ _ => []
    | .dir cs w _ => if w then findList cs path maxDepth exclude else []
/-- The `for item in directory.iterdir()` loop of `find_venvs_in_dir`. -/
def findList (cs : FsList) (path : List String) (maxDepth : Int)
    (exclude : List String) : List (List String) :=
  match cs with
  | .nil => []
  | .cons n c tl =>
    (if eligibleChild n c then find_venvs_in_dir c (path ++ [n]) (maxDepth - 1) exclude
     else []) ++ findList tl path maxDepth exclude
end

/-- Default exclusions added on non-Windows platforms. -/
def unixExcludes : List String := ["proc", "sys", "dev", "run"]

/-- Default exclusions added on Windows. -/
def winExcludes : List String := ["Windows", "Program Files", "Program Files (x86)"]

/-- The merged exclusion set built inside `find_venvs`. -/
def excludeSetOf (exclude_dirs : List String) (isWin : Bool) : List String :=
  exclude_dirs ++ (if isWin then winExcludes else unixExcludes)

/-- The parallel branch of `find_venvs`: one unit of work per top-level
child directory whose name is not excluded, results concatenated in
submission order (`ThreadPoolExecutor.map` preserves order). -/
def parScan (cs : FsList) (path : List String) (maxDepth : Int)
    (exclude : List String) : List (List String) :=
  match cs with
  | .nil => []
  | .cons n c tl =>
    (if isDirE c ∧ n ∉ exclude then
       find_venvs_in_dir c (path ++ [n]) (maxDepth - 1) exclude
     else []) ++ parScan tl path maxDepth exclude

/-- Model of `find_venvs(start_dir, max_depth, exclude_dirs, parallel)`.
`start` is the node the resolved start path points at, `startPath` that
absolute path.  `isWin` selects the platform default exclusions. -/
def find_venvs (start : FsEntry) (startPath : List String) (maxDepth : Int)
    (exclude_dirs : List String) (parallel : Bool) (isWin : Bool) :
    List (List String) :=
  let ex := excludeSetOf exclude_dirs isWin
  if parallel then
    match start with
    | .file _ _ _ => []
    | .dir cs w _ => if w then parScan cs startPath maxDepth ex else []
  else
    find_venvs_in_dir start startPath maxDepth ex

/-- The fixed manifest filename list of `has_requirement_files`. -/
def req_patterns : List String :=
  ["requirements.txt", "pyproject.toml", "Pipfile", "setup.py",
   "poetry.lock", "Pipfile.lock"]

/-- One level of the `has_requirement_files` loop: the matching manifest
paths in directory `d` (absolute components, relative to root `fs`). -/
def reqLevel (fs : FsEntry) (d : List String) : List (List String) :=
  (req_patterns.filter (fun pat => existsAt fs (d ++ [pat]))).map
    (fun pat => d ++ [pat])

/-- The `for _ in range(3)` loop: check a level, then move to the parent,
breaking once the root (its own parent) has been checked. -/
def reqLevels (fs : FsEntry) : Nat → List String → List (List String)
  | 0, _ => []
  | k + 1, d =>
    reqLevel fs d ++ (if d = [] then [] else reqLevels fs k d.dropLast)

/-- Model of `has_requirement_files(parent_dir)`: `(bool(req_files), req_files)`. -/
def has_requirement_files (fs : FsEntry) (parent_dir : List String) :
    Bool × List (List String) :=
  let files := reqLevels fs 3 parent_dir
  (!files.isEmpty, files)

/-! ## Path-resolution lemmas -/

/-- Resolving a concatenated path is resolving the first part, then the
second part below it (jointly with the child-listing variant). -/
theorem lookup_append_all :
    (∀ e, ∀ p m, lookupPath e (p ++ m) =
      (lookupPath e p).bind (fun x => lookupPath x m)) ∧
    (∀ cs, ∀ (n : String) rest m, lookupChild cs n (rest ++ m) =
      (lookupChild cs n rest).bind (fun x => lookupPath x m)) :=
  fs_mutual_ind _ _
    (fun sz s u p m => by cases p <;> rfl)
    (fun cs w r ih p m => by
      cases p with
      | nil => rfl
      | cons n rest => exact ih n rest m)
    (fun n rest m => rfl)
    (fun nm e tl ihe ihl n rest m => by
      show (if nm = n then lookupPath e (rest ++ m)
            else lookupChild tl n (rest ++ m)) = _
      by_cases h : nm = n
      · simp only [if_pos h, lookupChild]
        exact ihe rest m
      · simp only [if_neg h, lookupChild]
        exact ihl n rest m)

theorem lookupPath_append (e : FsEntry) (p m : List String) :
    lookupPath e (p ++ m) = (lookupPath e p).bind (fun x => lookupPath x m) :=
  lookup_append_all.1 e p m

/-- C6: `is_virtual_env(d)` is true exactly when `d` is a directory and
at least one of the marker paths `pyvenv.cfg`, `bin/activate`,
`Scripts/activate`, `bin/python`, `Scripts/python.exe` exists directly
beneath `d`; one marker suffices and no recursion below the markers is
involved. -/
theorem is_virtual_env_iff_marker (fs : FsEntry) (p : List String) :
    is_virtual_env_at fs p = true ↔
      isDirAt fs p = true ∧
        ∃ m, m ∈ VENV_IDENTIFIERS ∧ existsAt fs (p ++ m) = true := by
  unfold is_virtual_env_at isDirAt
  cases h : lookupPath fs p with
  | none =>
    simp only [Bool.false_eq_true, false_iff, not_and]
    intro hc
    exact absurd hc (by simp)
  | some e =>
    have hm : ∀ m : List String, existsAt fs (p ++ m) = existsAt e m := by
      intro m
      unfold existsAt
      rw [lookupPath_append, h]
      rfl
    simp only [is_virtual_env, Bool.and_eq_true, List.any_eq_true]
    constructor
    · rintro ⟨hd, m, hmem, hex⟩
      exact ⟨hd, m, hmem, by rw [hm]; exact hex⟩
    · rintro ⟨hd, m, hmem, hex⟩
      exact ⟨hd, m, hmem, by rw [← hm]; exact hex⟩

/-- Membership in one manifest-check level. -/
theorem mem_reqLevel (fs : FsEntry) (d r : List String) :
    r ∈ reqLevel fs d ↔
      ∃ pat, pat ∈ req_patterns ∧ existsAt fs r = true ∧ r = d ++ [pat] := by
  unfold reqLevel
  simp only [List.mem_map, List.mem_filter]
  constructor
  · rintro ⟨pat, ⟨hmem, hex⟩, rfl⟩
    exact ⟨pat, hmem, hex, rfl⟩
  · rintro ⟨pat, hmem, hex, rfl⟩
    exact ⟨pat, ⟨hmem, hex⟩, rfl⟩

theorem reqLevels_zero (fs : FsEntry) (d : List String) :
    reqLevels fs 0 d = [] := rfl

theorem mem_reqLevels_succ (fs : FsEntry) (k : Nat) (d r : List String) :
    r ∈ reqLevels fs (k + 1) d ↔
      r ∈ reqLevel fs d ∨ (d ≠ [] ∧ r ∈ reqLevels fs k d.dropLast) := by
  by_cases h : d = [] <;> simp [reqLevels, h]

/-- C7: the file list returned by `has_requirement_files(d)` holds
exactly the manifest names from the fixed list that exist in `d`, `d`'s
parent, or `d`'s grandparent (three levels, stopping early at the
filesystem root), never a file from a further ancestor, and matches from
all checked levels are collected. -/
theorem has_requirement_files_mem (fs : FsEntry) (d r : List String) :
    r ∈ (has_requirement_files fs d).2 ↔
      ∃ pat, pat ∈ req_patterns ∧ existsAt fs r = true ∧
        (r = d ++ [pat] ∨ r = d.dropLast ++ [pat] ∨
         r = d.dropLast.dropLast ++ [pat]) := by
  show r ∈ reqLevels fs 3 d ↔ _
  rw [mem_reqLevels_succ, mem_reqLevels_succ, mem_reqLevels_succ]
  simp only [reqLevels_zero, List.not_mem_nil, and_false, or_false]
  constructor
  · rintro (h | ⟨-, h | ⟨-, h⟩⟩) <;>
      · obtain ⟨pat, hmem, hex, rfl⟩ := (mem_reqLevel fs _ r).mp h
        refine ⟨pat, hmem, hex, ?_⟩
        tauto
  · rintro ⟨pat, hmem, hex, (h | h | h)⟩
    · exact Or.inl ((mem_reqLevel fs _ r).mpr ⟨pat, hmem, hex, h⟩)
    · by_cases h0 : d = []
      · refine Or.inl ((mem_reqLevel fs _ r).mpr ⟨pat, hmem, hex, ?_⟩)
        rw [h, h0, List.dropLast_nil]
      · exact Or.inr ⟨h0, Or.inl ((mem_reqLevel fs _ r).mpr ⟨pat, hmem, hex, h⟩)⟩
    · by_cases h0 : d = []
      · refine Or.inl ((mem_reqLevel fs _ r).mpr ⟨pat, hmem, hex, ?_⟩)
        rw [h, h0, List.dropLast_nil, List.dropLast_nil]
      · by_cases h1 : d.dropLast = []
        · refine Or.inr ⟨h0, Or.inl ((mem_reqLevel fs _ r).mpr
            ⟨pat, hmem, hex, ?_⟩)⟩
          rw [h, h1, List.dropLast_nil]
        · exact Or.inr ⟨h0, Or.inr ⟨h1, (mem_reqLevel fs _ r).mpr
            ⟨pat, hmem, hex, h⟩⟩⟩

/-! ## Traversal lemmas -/

/-- A directory whose name is excluded is abandoned without results. -/
theorem findIn_excluded (e : FsEntry) (p : List String) (md : Int)
    (ex : List String) (h : pathName p ∈ ex) :
    find_venvs_in_dir e p md ex = [] := by
  unfold find_venvs_in_dir
  rw [if_pos h]

/-- Listing a file raises `NotADirectoryError`, which is swallowed: no results. -/
theorem findIn_file (sz : Nat) (s u : Bool) (p : List String) (md : Int)
    (ex : List String) : find_venvs_in_dir (.file sz s u) p md ex = [] := by
  unfold find_venvs_in_dir
  split_ifs <;> simp_all [is_virtual_env, isDirE]

theorem pathName_concat (p : List String) (n : String) :
    pathName (p ++ [n]) = n := List.getLastD_concat _ _ _

/-- Every result extends the directory it was found under; list results
extend the scanned directory by one of its child names. -/
theorem find_prefix_all :
    (∀ e, ∀ p md ex r, r ∈ find_venvs_in_dir e p md ex → p <+: r) ∧
    (∀ cs, ∀ p md ex r, r ∈ findList cs p md ex →
      ∃ n, n ∈ namesL cs ∧ p ++ [n] <+: r) :=
  fs_mutual_ind _ _
    (fun sz s u p md ex r h => absurd h (by rw [findIn_file]; simp))
    (fun cs w rm ih p md ex r h => by
      rw [find_venvs_in_dir] at h
      split_ifs at h with h1 h2 h3 h4
      · exact absurd h (by simp)
      · rw [List.mem_singleton] at h
        exact h ▸ List.prefix_refl p
      · exact absurd h (by simp)
      · obtain ⟨n, -, hpre⟩ := ih p md ex r h
        exact (List.prefix_append p [n]).trans hpre
      · exact absurd h (by simp))
    (fun p md ex r h => absurd h (by simp [findList]))
    (fun n c tl ihe ihl p md ex r h => by
      rw [findList] at h
      rcases List.mem_append.mp h with hl | hr
      · split_ifs at hl with helig
        · exact ⟨n, by simp [namesL], ihe _ _ _ _ hl⟩
        · exact absurd hl (by simp)
      · obtain ⟨m, hm, hpre⟩ := ihl p md ex r hr
        exact ⟨m, by simp [namesL, hm], hpre⟩)

/-- A result found below a child named `n` of directory `p` has `n` as its
component at depth `p.length`, with the deeper components following. -/
theorem drop_at_child_eq {p r : List String} {n : String}
    (h : (p ++ [n]) <+: r) :
    r.drop p.length = n :: r.drop (p ++ [n]).length := by
  obtain ⟨t, ht⟩ := h
  subst ht
  have h1 : ((p ++ [n]) ++ t).drop p.length = [n] ++ t := by
    rw [List.append_assoc, List.drop_left]
  have h2 : ((p ++ [n]) ++ t).drop (p ++ [n]).length = t := List.drop_left _ _
  rw [h1, h2]
  rfl

/-- Excluded names never occur among the path components a scan adds below
the directory it starts from (sequential recursion). -/
theorem find_excl_all :
    (∀ e, ∀ p md ex r E, r ∈ find_venvs_in_dir e p md ex → E ∈ ex →
      E ∉ r.drop p.length) ∧
    (∀ cs, ∀ p md ex r E, r ∈ findList cs p md ex → E ∈ ex →
      E ∉ r.drop p.length) :=
  fs_mutual_ind _ _
    (fun sz s u p md ex r E h _ => absurd h (by rw [findIn_file]; simp))
    (fun cs w rm ih p md ex r E h hE => by
      rw [find_venvs_in_dir] at h
      split_ifs at h with h1 h2 h3 h4
      · exact absurd h (by simp)
      · rw [List.mem_singleton] at h
        subst h
        simp [List.drop_length]
      · exact absurd h (by simp)
      · exact ih p md ex r E h hE
      · exact absurd h (by simp))
    (fun p md ex r E h _ => absurd h (by simp [findList]))
    (fun n c tl ihe ihl p md ex r E h hE => by
      rw [findList] at h
      rcases List.mem_append.mp h with hl | hr
      · split_ifs at hl with helig
        · have hn : n ∉ ex := by
            intro hnex
            have : find_venvs_in_dir c (p ++ [n]) (md - 1) ex = [] :=
              findIn_excluded _ _ _ _ (by rwa [pathName_concat])
            rw [this] at hl
            exact absurd hl (by simp)
          have hpre : (p ++ [n]) <+: r := find_prefix_all.1 _ _ _ _ _ hl
          rw [drop_at_child_eq hpre]
          intro hmem
          rcases List.mem_cons.mp hmem with rfl | hmem'
          · exact hn hE
          · exact ihe _ _ _ _ E hl hE hmem'
        · exact absurd hl (by simp)
      · exact ihl p md ex r E hr hE)

mutual
/-- Well-formed snapshot: sibling names are distinct at every level (as on
a real filesystem). -/
def wfE : FsEntry → Bool
  | .file _ _ _ => true
  | .dir cs _ _ => decide (namesL cs).Nodup && wfL cs
/-- Listing-level well-formedness. -/
def wfL : FsList → Bool
  | .nil => true
  | .cons _ e tl => wfE e && wfL tl
end

/-- Mutual incomparability of two result paths: neither is a prefix of the
other (in particular they differ and neither lies inside the other). -/
def Incomp (a b : List String) : Prop := ¬ a <+: b ∧ ¬ b <+: a

theorem Incomp.symmetric : Symmetric Incomp := fun _ _ h => ⟨h.2, h.1⟩

theorem nodup_of_pairwise_incomp {l : List (List String)}
    (h : l.Pairwise Incomp) : l.Nodup :=
  h.imp (fun hi => fun heq => hi.1 (heq ▸ List.prefix_refl _))

/-- Results found under two distinct children of the same directory are
never prefixes of one another. -/
theorem prefix_incomp {p a b : List String} {n m : String}
    (hn : (p ++ [n]) <+: a) (hm : (p ++ [m]) <+: b) (hnm : n ≠ m) :
    ¬ a <+: b := by
  intro hab
  have h1 : (p ++ [n]) <+: b := hn.trans hab
  have h2 : (p ++ [n]) <+: (p ++ [m]) :=
    List.prefix_of_prefix_length_le h1 hm (by simp)
  have h3 := h2.eq_of_length (by simp)
  exact hnm (by simpa using h3)

/-- On a well-formed snapshot the sequential scan's results are pairwise
incomparable (no result inside another, no duplicates). -/
theorem find_pairwise_all :
    (∀ e, ∀ p md ex, wfE e = true →
      (find_venvs_in_dir e p md ex).Pairwise Incomp) ∧
    (∀ cs, ∀ p md ex, wfL cs = true → (namesL cs).Nodup →
      (findList cs p md ex).Pairwise Incomp) :=
  fs_mutual_ind _ _
    (fun sz s u p md ex _ => by rw [findIn_file]; exact List.Pairwise.nil)
    (fun cs w rm ih p md ex hwf => by
      rw [find_venvs_in_dir]
      split_ifs with h1 h2 h3 h4
      · exact List.Pairwise.nil
      · exact List.pairwise_singleton _ _
      · exact List.Pairwise.nil
      · simp only [wfE, Bool.and_eq_true, decide_eq_true_eq] at hwf
        exact ih p md ex hwf.2 hwf.1
      · exact List.Pairwise.nil)
    (fun p md ex _ _ => by simp only [findList]; exact List.Pairwise.nil)
    (fun n c tl ihe ihl p md ex hwf hnd => by
      simp only [wfL, Bool.and_eq_true] at hwf
      simp only [namesL, List.nodup_cons] at hnd
      rw [findList]
      refine List.pairwise_append.mpr ⟨?_, ihl p md ex hwf.2 hnd.2, ?_⟩
      · split_ifs with helig
        · exact ihe _ _ _ hwf.1
        · exact List.Pairwise.nil
      · intro a ha b hb
        have hpa : (p ++ [n]) <+: a := by
          split_ifs at ha with helig
          · exact find_prefix_all.1 _ _ _ _ _ ha
          · exact absurd ha (by simp)
        obtain ⟨m, hmtl, hpb⟩ := find_prefix_all.2 _ _ _ _ _ hb
        have hnm : n ≠ m := fun heq => hnd.1 (heq ▸ hmtl)
        exact ⟨prefix_incomp hpa hpb hnm, prefix_incomp hpb hpa hnm.symm⟩)

/-! ## Parallel-branch lemmas -/

/-- Every parallel-branch result lies below a non-excluded top-level child
directory. -/
theorem parScan_under_child (cs : FsList) :
    ∀ p md ex r, r ∈ parScan cs p md ex →
      ∃ n, n ∈ namesL cs ∧ n ∉ ex ∧ (p ++ [n]) <+: r := by
  induction cs using fsList_ind with
  | h0 => intro p md ex r h; exact absurd h (by simp [parScan])
  | h1 n c tl ih =>
    intro p md ex r h
    rw [parScan] at h
    rcases List.mem_append.mp h with hl | hr
    · split_ifs at hl with hg
      · exact ⟨n, by simp [namesL], hg.2, find_prefix_all.1 _ _ _ _ _ hl⟩
      · exact absurd hl (by simp)
    · obtain ⟨m, hm, hnex, hpre⟩ := ih p md ex r hr
      exact ⟨m, by simp [namesL, hm], hnex, hpre⟩

/-- Excluded names never occur among the components a parallel scan adds
below the start directory. -/
theorem parScan_excl (cs : FsList) :
    ∀ p md ex r E, r ∈ parScan cs p md ex → E ∈ ex →
      E ∉ r.drop p.length := by
  induction cs using fsList_ind with
  | h0 => intro p md ex r E h _; exact absurd h (by simp [parScan])
  | h1 n c tl ih =>
    intro p md ex r E h hE
    rw [parScan] at h
    rcases List.mem_append.mp h with hl | hr
    · split_ifs at hl with hg
      · have hpre : (p ++ [n]) <+: r := find_prefix_all.1 _ _ _ _ _ hl
        rw [drop_at_child_eq hpre]
        intro hmem
        rcases List.mem_cons.mp hmem with rfl | hmem'
        · exact hg.2 hE
        · exact find_excl_all.1 _ _ _ _ _ E hl hE hmem'
      · exact absurd hl (by simp)
    · exact ih p md ex r E hr hE

/-- On a well-formed snapshot the parallel scan's results are pairwise
incomparable. -/
theorem parScan_pairwise (cs : FsList) :
    ∀ p md ex, wfL cs = true → (namesL cs).Nodup →
      (parScan cs p md ex).Pairwise Incomp := by
  induction cs using fsList_ind with
  | h0 => intro p md ex _ _; simp only [parScan]; exact List.Pairwise.nil
  | h1 n c tl ih =>
    intro p md ex hwf hnd
    simp only [wfL, Bool.and_eq_true] at hwf
    simp only [namesL, List.nodup_cons] at hnd
    rw [parScan]
    refine List.pairwise_append.mpr ⟨?_, ih p md ex hwf.2 hnd.2, ?_⟩
    · split_ifs with hg
      · exact find_pairwise_all.1 _ _ _ _ hwf.1
      · exact List.Pairwise.nil
    · intro a ha b hb
      have hpa : (p ++ [n]) <+: a := by
        split_ifs at ha with hg
        · exact find_prefix_all.1 _ _ _ _ _ ha
        · exact absurd ha (by simp)
      obtain ⟨m, hmtl, -, hpb⟩ := parScan_under_child tl p md ex b hb
      have hnm : n ≠ m := fun heq => hnd.1 (heq ▸ hmtl)
      exact ⟨prefix_incomp hpa hpb hnm, prefix_incomp hpb hpa hnm.symm⟩

/-! ## `find_venvs` evaluation lemmas -/

theorem find_venvs_false_eval (start : FsEntry) (sp : List String) (md : Int)
    (excl : List String) (win : Bool) :
    find_venvs start sp md excl false win =
      find_venvs_in_dir start sp md (excludeSetOf excl win) := by
  simp [find_venvs]

theorem find_venvs_true_eval_file (sz : Nat) (s u : Bool) (sp : List String)
    (md : Int) (excl : List String) (win : Bool) :
    find_venvs (.file sz s u) sp md excl true win = [] := by
  simp [find_venvs]

theorem find_venvs_true_eval_dir (cs : FsList) (w rm : Bool) (sp : List String)
    (md : Int) (excl : List String) (win : Bool) :
    find_venvs (.dir cs w rm) sp md excl true win =
      if w then parScan cs sp md (excludeSetOf excl win) else [] := by
  simp [find_venvs]

/-! ## Concrete snapshots used as counterexamples and witnesses -/

/-- A directory that is itself a virtual environment (holds `pyvenv.cfg`). -/
def envOnly : FsEntry :=
  .dir (.cons "pyvenv.cfg" (.file 10 true true) .nil) true true

/-- A virtual environment that also contains a child environment `c`. -/
def nestedEnv : FsEntry :=
  .dir (.cons "c" envOnly (.cons "pyvenv.cfg" (.file 1 true true) .nil)) true true

/-- A plain project directory with one environment child `venv`. -/
def projDir : FsEntry := .dir (.cons "venv" envOnly .nil) true true

/-! ## C1: parallel/sequential equivalence -/

/-- C1 counterexample: on a start directory that is itself a virtual
environment, the sequential scan returns the start directory but the
parallel scan — which never applies the recognizer to the start directory
itself, only to its top-level children — returns nothing, so the two modes
do not return the same set of paths. -/
theorem find_venvs_parallel_seq_differ :
    ["home", "v"] ∈ find_venvs envOnly ["home", "v"] 5 [] false false ∧
    ["home", "v"] ∉ find_venvs envOnly ["home", "v"] 5 [] true false := by
  decide

/-- Hidden-name rule under which the sequential recursion would descend. -/
def hiddenOkName (n : String) : Bool :=
  !startsWithDot n || decide (strLower n ∈ hiddenAllow)

/-- All top-level child directories pass the sequential hidden-name rule. -/
def childrenOkL : FsList → Bool
  | .nil => true
  | .cons n e tl => (!isDirE e || hiddenOkName n) && childrenOkL tl

/-- Entry-level version of `childrenOkL`. -/
def topChildrenOk : FsEntry → Bool
  | .file _ _ _ => true
  | .dir cs _ _ => childrenOkL cs

theorem eligibleChild_of_ok {n : String} {e : FsEntry} (hd : isDirE e = true)
    (hh : hiddenOkName n = true) : eligibleChild n e = true := by
  unfold eligibleChild
  unfold hiddenOkName at hh
  cases hsw : startsWithDot n <;> simp_all

theorem findList_eq_parScan (cs : FsList) :
    ∀ p md ex, childrenOkL cs = true → findList cs p md ex = parScan cs p md ex := by
  induction cs using fsList_ind with
  | h0 => intro p md ex _; rfl
  | h1 n c tl ih =>
    intro p md ex h
    simp only [childrenOkL, Bool.and_eq_true] at h
    rw [findList, parScan, ih p md ex h.2]
    congr 1
    by_cases hd : isDirE c = true
    · have hh : hiddenOkName n = true := by
        rcases Bool.or_eq_true_iff.mp h.1 with h' | h'
        · rw [hd] at h'; exact absurd h' (by simp)
        · exact h'
      rw [if_pos (eligibleChild_of_ok hd hh)]
      by_cases hn : n ∈ ex
      · rw [if_neg (by simp [hn]), findIn_excluded _ _ _ _ (by rwa [pathName_concat])]
      · rw [if_pos ⟨hd, hn⟩]
    · rw [if_neg (by simp [eligibleChild, hd]), if_neg (by simp [hd])]

/-- A directory that survives the name, recognizer, and depth checks
descends into its child listing (or stops if unreadable). -/
theorem findIn_dir_open (cs : FsList) (w rm : Bool) (p : List String)
    (md : Int) (ex : List String) (hname : pathName p ∉ ex)
    (hvenv : is_virtual_env (.dir cs w rm) = false) (hmd : 0 < md) :
    find_venvs_in_dir (.dir cs w rm) p md ex =
      if w then findList cs p md ex else [] := by
  rw [find_venvs_in_dir, if_neg hname, if_neg (by simp [hvenv]),
    if_neg (by omega)]

/-- C1 (amended): parallel and sequential scans return identical result
lists (hence identical sets) provided the start directory's own name is not
excluded, the start directory is not itself recognized as an environment,
the depth budget is positive, and every top-level child directory passes
the hidden-name descent rule.  Each condition is forced by a
counterexample: the parallel mode never name-checks, recognizer-checks, or
depth-checks the start directory itself, and never applies the hidden-name
rule to top-level children. -/
theorem find_venvs_parallel_seq_agree (start : FsEntry) (sp : List String)
    (md : Int) (excl : List String) (win : Bool)
    (hname : pathName sp ∉ excludeSetOf excl win)
    (hvenv : is_virtual_env start = false)
    (hmd : 0 < md)
    (hch : topChildrenOk start = true) :
    find_venvs start sp md excl true win = find_venvs start sp md excl false win := by
  cases start with
  | file sz s u =>
    rw [find_venvs_true_eval_file, find_venvs_false_eval, findIn_file]
  | dir cs w rm =>
    rw [find_venvs_true_eval_dir, find_venvs_false_eval,
      findIn_dir_open cs w rm sp md _ hname hvenv hmd]
    simp only [topChildrenOk] at hch
    cases w
    · rfl
    · simp only [if_true]
      exact (findList_eq_parScan cs sp md _ hch).symm

/-- Witness for C1 (amended) at a concrete project snapshot. -/
theorem find_venvs_parallel_seq_agree_witness :
    (pathName ["base"] ∉ excludeSetOf [] false ∧
      is_virtual_env projDir = false ∧ (0 : Int) < 5 ∧
      topChildrenOk projDir = true) ∧
    find_venvs projDir ["base"] 5 [] true false =
      find_venvs projDir ["base"] 5 [] false false :=
  ⟨⟨by decide, by decide, by decide, by decide⟩,
    find_venvs_parallel_seq_agree projDir ["base"] 5 [] false
      (by decide) (by decide) (by decide) (by decide)⟩

/-! ## C5: exclusion -/

/-- C5 counterexample: with the start directory named `proc` (a
platform-default exclusion) the parallel scan still descends into it — the
parallel branch never checks the start directory's own name — so a returned
path carries an excluded name as one of its components, contradicting the
claim for `parallel = true`. -/
theorem excluded_component_counterexample :
    "proc" ∈ excludeSetOf [] false ∧
    ["proc", "venv"] ∈ find_venvs projDir ["proc"] 5 [] true false ∧
    "proc" ∈ (["proc", "venv"] : List String) := by
  decide

/-- C5 (amended): no excluded name (caller-supplied or platform
default) ever appears among the path components a scan adds strictly below
the start directory, in either mode; and in sequential mode a start
directory whose own name is excluded yields no results at all.  (The
original claim fails only for components of the start path itself, which
the parallel mode does not name-check.) -/
theorem excluded_name_not_below_start (start : FsEntry) (sp : List String)
    (md : Int) (excl : List String) (par win : Bool) :
    (∀ E ∈ excludeSetOf excl win, ∀ r ∈ find_venvs start sp md excl par win,
      E ∉ r.drop sp.length) ∧
    (par = false → pathName sp ∈ excludeSetOf excl win →
      find_venvs start sp md excl par win = []) := by
  constructor
  · intro E hE r hr
    cases par
    · rw [find_venvs_false_eval] at hr
      exact find_excl_all.1 _ _ _ _ _ _ hr hE
    · cases start with
      | file sz s u =>
        rw [find_venvs_true_eval_file] at hr
        exact absurd hr (by simp)
      | dir cs w rm =>
        rw [find_venvs_true_eval_dir] at hr
        split_ifs at hr with hw
        · exact parScan_excl cs _ _ _ _ _ hr hE
        · exact absurd hr (by simp)
  · rintro rfl hname
    rw [find_venvs_false_eval]
    exact findIn_excluded _ _ _ _ hname

/-- Witness for C5 (amended): a concrete scan result with an excluded name
shown absent below the start directory. -/
theorem excluded_name_not_below_start_witness :
    ("proc" ∈ excludeSetOf [] false ∧
      ["base", "venv"] ∈ find_venvs projDir ["base"] 5 [] false false) ∧
    "proc" ∉ (["base", "venv"] : List String).drop (["base"] : List String).length :=
  ⟨⟨by decide, by decide⟩,
    (excluded_name_not_below_start projDir ["base"] 5 [] false false).1
      "proc" (by decide) ["base", "venv"] (by decide)⟩

/-! ## C3: non-recursion into recognized environments -/

/-- C3 counterexample: the start directory itself satisfies the
recognition predicate, yet the parallel scan returns a path strictly inside
it: the parallel mode skips the recognizer check on the start directory and
dives straight into its children. -/
theorem scan_inside_recognized_env_counterexample :
    is_virtual_env nestedEnv = true ∧
    ["p", "c"] ∈ find_venvs nestedEnv ["p"] 5 [] true false ∧
    ["p"] <+: ["p", "c"] ∧ (["p"] : List String) ≠ ["p", "c"] := by
  refine ⟨by decide, by decide, ⟨["c"], rfl⟩, by decide⟩

/-- C3 (amended): on a snapshot with distinct sibling names, the scan's
result list (either mode) has no duplicates and no result lies strictly
inside another result; in particular a directory the scan recognizes and
returns is neither revisited nor scanned inside.  (As stated the claim
additionally fails for a recognized directory that strictly contains the
scan's start directory — reachable only in parallel mode, per the
counterexample.) -/
theorem scan_results_antichain (start : FsEntry) (sp : List String)
    (md : Int) (excl : List String) (par win : Bool)
    (hwf : wfE start = true) :
    (find_venvs start sp md excl par win).Nodup ∧
    ∀ D ∈ find_venvs start sp md excl par win,
      ∀ R ∈ find_venvs start sp md excl par win, D <+: R → D = R := by
  have hpw : (find_venvs start sp md excl par win).Pairwise Incomp := by
    cases par
    · rw [find_venvs_false_eval]
      exact find_pairwise_all.1 _ _ _ _ hwf
    · cases start with
      | file sz s u =>
        rw [find_venvs_true_eval_file]
        exact List.Pairwise.nil
      | dir cs w rm =>
        rw [find_venvs_true_eval_dir]
        split_ifs with hw
        · simp only [wfE, Bool.and_eq_true, decide_eq_true_eq] at hwf
          exact parScan_pairwise cs _ _ _ hwf.2 hwf.1
        · exact List.Pairwise.nil
  refine ⟨nodup_of_pairwise_incomp hpw, ?_⟩
  intro D hD R hR hpre
  by_contra hne
  exact (hpw.forall Incomp.symmetric hD hR hne).1 hpre

/-- Witness for C3 (amended) on a concrete snapshot. -/
theorem scan_results_antichain_witness :
    wfE projDir = true ∧ (find_venvs projDir ["base"] 5 [] false false).Nodup :=
  ⟨by decide,
    (scan_results_antichain projDir ["base"] 5 [] false false (by decide)).1⟩

/-! ## cleaner.py -/

mutual
/-- The best-effort size pre-walk (`os.walk` summing `stat().st_size`,
skipping files whose `stat` fails and subtrees whose listing fails; a
missing or file argument walks nothing). -/
def sizeWalk : FsEntry → Nat
  | .file _ _ _ => 0
  | .dir cs w _ => if w then sizeList cs else 0
/-- Sum over one directory listing: file children by `stat`, directory
children recursively. -/
def sizeList : FsList → Nat
  | .nil => 0
  | .cons _ e tl =>
    (match e with
     | .file sz sOk _ => if sOk then sz else 0
     | .dir _ _ _ => sizeWalk e) + sizeList tl
end

/-- State threaded through the deletion walk: bytes removed so far, error
strings collected so far, progress-callback invocations so far. -/
structure DelState where
  bytes : Nat
  errs : List String
  calls : List (Nat × Nat)
  deriving DecidableEq, Repr

/-- Progress callback model: `none` is `progress_callback=None`; `some f`
invokes `f bytes_removed total_size`, returning `some msg` when the
callback raises (with the exception message) and `none` when it returns. -/
def Cb := Option (Nat → Nat → Option String)

/-- Path rendering for error messages. -/
def joinPath (p : List String) : String := String.intercalate "/" p

/-- The `for file in files:` loop of one `os.walk` triple: stat then unlink
each file child, accumulating bytes and firing the progress callback after
each successful unlink.  A `stat`/`unlink` failure appends one error and
leaves the file in place; a callback exception aborts the walk (the error
value carries the message, the remaining children, and the state). -/
def delFiles (cb : Cb) (total : Nat) (path : List String) :
    FsList → DelState → Except (String × FsList × DelState) (FsList × DelState)
  | .nil, st => .ok (.nil, st)
  | .cons n e tl, st =>
    match e with
    | .file sz sOk uOk =>
      if sOk && uOk then
        let b := st.bytes + sz
        match cb with
        | none => delFiles cb total path tl ⟨b, st.errs, st.calls⟩
        | some f =>
          let st1 : DelState := ⟨b, st.errs, st.calls ++ [(b, total)]⟩
          match f b total with
          | some m => .error (m, tl, st1)
          | none => delFiles cb total path tl st1
      else
        let st1 : DelState := ⟨st.bytes,
          st.errs ++ ["Error deleting file " ++ joinPath (path ++ [n])],
          st.calls⟩
        match delFiles cb total path tl st1 with
        | .ok (tl', st') => .ok (.cons n e tl', st')
        | .error (m, tl', st') => .error (m, .cons n e tl', st')
    | .dir _ _ _ =>
      match delFiles cb total path tl st with
      | .ok (tl', st') => .ok (.cons n e tl', st')
      | .error (m, tl', st') => .error (m, .cons n e tl', st')

/-- The `for dir in dirs:` loop of one `os.walk` triple: `rmdir` each child
directory, which succeeds only when it is empty by now and `rmdirOk`;
a failure appends one error and leaves the directory. -/
def delRmdirs (path : List String) : FsList → DelState → FsList × DelState
  | .nil, st => (.nil, st)
  | .cons n e tl, st =>
    match e with
    | .dir cs _ rOk =>
      if isNilL cs && rOk then delRmdirs path tl st
      else
        let st1 : DelState := ⟨st.bytes,
          st.errs ++ ["Error deleting directory " ++ joinPath (path ++ [n])],
          st.calls⟩
        let r := delRmdirs path tl st1
        (.cons n e r.1, r.2)
    | .file _ _ _ =>
      let r := delRmdirs path tl st
      (.cons n e r.1, r.2)

mutual
/-- Process the `os.walk(path, topdown=False)` triples of the subtree at a
directory entry: child subtrees first (post-order), then this directory's
files, then `rmdir` of its child directories.  An unlistable directory
yields no triples at all (`os.walk` swallows the scandir error), so its
subtree is untouched; a file argument walks nothing. -/
def delWalkE (cb : Cb) (total : Nat) (path : List String) :
    FsEntry → DelState → Except (String × FsEntry × DelState) (FsEntry × DelState)
  | .file sz sOk uOk, st => .ok (.file sz sOk uOk, st)
  | .dir cs w r, st =>
    if w then
      match delSubdirs cb total path cs st with
      | .error (m, cs', st') => .error (m, .dir cs' w r, st')
      | .ok (cs1, st1) =>
        match delFiles cb total path cs1 st1 with
        | .error (m, cs', st') => .error (m, .dir cs' w r, st')
        | .ok (cs2, st2) =>
          let r3 := delRmdirs path cs2 st2
          .ok (.dir r3.1 w r, r3.2)
    else .ok (.dir cs w r, st)
/-- Walk each child's subtree in listing order (files are left untouched
by this pass). -/
def delSubdirs (cb : Cb) (total : Nat) (path : List String) :
    FsList → DelState → Except (String × FsList × DelState) (FsList × DelState)
  | .nil, st => .ok (.nil, st)
  | .cons n e tl, st =>
    match delWalkE cb total (path ++ [n]) e st with
    | .error (m, e', st') => .error (m, .cons n e' tl, st')
    | .ok (e', st') =>
      match delSubdirs cb total path tl st' with
      | .error (m, tl', st'') => .error (m, .cons n e' tl', st'')
      | .ok (tl', st'') => .ok (.cons n e' tl', st'')
end

mutual
/-- Whether the `shutil.rmtree` fallback can fully remove the remaining
subtree: every directory listable and removable, every file unlinkable.
(On failure `rmtree` raises and the subtree is reported as an error; the
model leaves it in place.) -/
def forceRemovable : FsEntry → Bool
  | .file _ _ u => u
  | .dir cs w r => w && r && forceRemovableL cs
/-- Listing-level version of `forceRemovable`. -/
def forceRemovableL : FsList → Bool
  | .nil => true
  | .cons _ e tl => forceRemovable e && forceRemovableL tl
end

/-- Everything `safe_delete_venv` produces or observes: result pair
(`success`, `detail`), bytes removed, errors collected, the caught
unexpected exception (if any), the progress invocations, and the surviving
root entry (`none` once the root directory is gone). -/
structure DelOutcome where
  success : Bool
  detail : String
  bytes : Nat
  errs : List String
  raised : Option String
  calls : List (Nat × Nat)
  remaining : Option FsEntry
  deriving DecidableEq, Repr

/-- The failure branch's error rendering: first three errors joined by
newlines, plus an `(and N more errors)` suffix when there are more. -/
def renderErrors (errs : List String) : String :=
  String.intercalate "\n" (errs.take 3) ++
    (if 3 < errs.length then
      " (and " ++ toString (errs.length - 3) ++ " more errors)"
     else "")

/-- Whether the root-removal step succeeds: `rmdir` works on an empty
directory with `rmdirOk`, otherwise the `shutil.rmtree` fallback must be
able to force-remove the whole remaining subtree. -/
def rootRemovable (e : FsEntry) : Bool :=
  match e with
  | .dir cs _ rOk => (isNilL cs && rOk) || forceRemovable e
  | .file _ _ _ => false

/-- Model of `safe_delete_venv(venv_path, progress_callback)`.  `root` is the entry
the path resolves to (`none` when the path does not exist). -/
def safe_delete_venv (root : Option FsEntry) (cb : Cb) (rootPath : List String) :
    DelOutcome :=
  match root with
  | none =>
    ⟨false, "Directory does not exist: " ++ joinPath rootPath, 0, [], none, [],
      none⟩
  | some e =>
    if isDirE e then
      match delWalkE cb (sizeWalk e) rootPath e ⟨0, [], []⟩ with
      | .error (m, e', st) =>
        ⟨false, "Unexpected error during deletion: " ++ m, st.bytes, st.errs,
          some m, st.calls, some e'⟩
      | .ok (e', st) =>
        let rootGone := rootRemovable e'
        let errsF := if rootGone then st.errs
          else st.errs ++ ["Error deleting root directory: " ++ joinPath rootPath]
        let remaining := if rootGone then none else some e'
        if errsF = [] then ⟨true, "", st.bytes, errsF, none, st.calls, remaining⟩
        else if 0 < st.bytes then
          ⟨true, "Partially deleted (" ++ toString errsF.length ++ " errors)",
            st.bytes, errsF, none, st.calls, remaining⟩
        else
          ⟨false, renderErrors errsF, st.bytes, errsF, none, st.calls, remaining⟩
    else
      ⟨false, "Directory does not exist: " ++ joinPath rootPath, 0, [], none, [],
        some e⟩

/-- The `venv_progress` wrapper built inside `delete_multiple_venvs`: with
a user progress callback installed (and assuming that callback itself
returns normally), the wrapper computes `bytes_done/total*100`, which
raises `ZeroDivisionError` exactly when `total == 0`. -/
def pyWrapperCb : Nat → Nat → Option String :=
  fun _ total => if total = 0 then some "division by zero" else none

/-- The aggregate report of `delete_multiple_venvs`. -/
structure BatchOutcome where
  venvs_deleted : Nat
  bytes_freed : Nat
  failures : List (List String × String)
  deriving DecidableEq, Repr

/-- The per-path loop of `delete_multiple_venvs`: measure the path's size
afresh, attempt deletion, then either count it deleted (adding the
freshly measured size) or append it to the failures. -/
def deleteLoop (hasCb : Bool) :
    List (List String × Option FsEntry) → BatchOutcome → BatchOutcome
  | [], acc => acc
  | (p, t) :: rest, acc =>
    let venv_size := match t with
      | some e => sizeWalk e
      | none => 0
    let out := safe_delete_venv t (if hasCb then some pyWrapperCb else none) p
    let acc' := if out.success then
        ⟨acc.venvs_deleted + 1, acc.bytes_freed + venv_size, acc.failures⟩
      else
        ⟨acc.venvs_deleted, acc.bytes_freed, acc.failures ++ [(p, out.detail)]⟩
    deleteLoop hasCb rest acc'

/-- Model of `delete_multiple_venvs(venv_paths, progress_callback)` over a list of
(path, entry-or-missing) pairs; `hasCb` records whether a progress
callback was supplied. -/
def delete_multiple_venvs (items : List (List String × Option FsEntry))
    (hasCb : Bool) : BatchOutcome :=
  deleteLoop hasCb items ⟨0, 0, []⟩

/-! ## C8: batch totality -/

theorem deleteLoop_total (hasCb : Bool)
    (items : List (List String × Option FsEntry)) :
    ∀ acc, (deleteLoop hasCb items acc).venvs_deleted +
        (deleteLoop hasCb items acc).failures.length =
      acc.venvs_deleted + acc.failures.length + items.length := by
  induction items with
  | nil => intro acc; simp [deleteLoop]
  | cons it rest ih =>
    intro acc
    obtain ⟨p, t⟩ := it
    simp only [deleteLoop]
    by_cases h : (safe_delete_venv t
        (if hasCb then some pyWrapperCb else none) p).success = true
    · rw [if_pos h, ih]
      simp only [List.length_cons]
      omega
    · rw [if_neg h, ih]
      simp only [List.length_append, List.length_cons, List.length_nil]
      omega

/-- C8: `delete_multiple_venvs` (a total function in this model — no
individual path failure escapes it) accounts for every requested path
exactly once: deleted count plus failure count equals the input count. -/
theorem delete_multiple_accounts_all
    (items : List (List String × Option FsEntry)) (hasCb : Bool) :
    (delete_multiple_venvs items hasCb).venvs_deleted +
      (delete_multiple_venvs items hasCb).failures.length = items.length := by
  unfold delete_multiple_venvs
  rw [deleteLoop_total]
  simp

/-! ## C9: progress monotonicity -/

/-- Invariant of the deletion walk: recorded `bytes_done` values are
non-decreasing and bounded by the running byte counter. -/
def CallsOk (st : DelState) : Prop :=
  st.calls.Chain' (fun a b => a.1 ≤ b.1) ∧
    ∀ c ∈ st.calls.getLast?, c.1 ≤ st.bytes

/-- State carried by either outcome of a walk step. -/
def outSt {α : Type} :
    Except (String × α × DelState) (α × DelState) → DelState
  | .ok (_, st) => st
  | .error (_, _, st) => st

theorem CallsOk.init : CallsOk ⟨0, [], []⟩ := ⟨List.chain'_nil, by simp⟩

theorem CallsOk.relabel {st : DelState} (h : CallsOk st) (errs' : List String) :
    CallsOk ⟨st.bytes, errs', st.calls⟩ := h

theorem CallsOk.grow {st : DelState} (h : CallsOk st) {b : Nat}
    (hb : st.bytes ≤ b) (errs' : List String) :
    CallsOk ⟨b, errs', st.calls⟩ :=
  ⟨h.1, fun c hc => (h.2 c hc).trans hb⟩

theorem CallsOk.push {st : DelState} (h : CallsOk st) {b total : Nat}
    (hb : st.bytes ≤ b) (errs' : List String) :
    CallsOk ⟨b, errs', st.calls ++ [(b, total)]⟩ := by
  constructor
  · rw [List.chain'_append]
    refine ⟨h.1, List.chain'_singleton _, fun x hx y hy => ?_⟩
    simp only [List.head?_cons, Option.mem_def, Option.some.injEq] at hy
    subst hy
    exact (h.2 x hx).trans hb
  · intro c hc
    rw [List.getLast?_concat] at hc
    simp only [Option.mem_def, Option.some.injEq] at hc
    subst hc
    exact le_refl _

theorem delFiles_callsOk (cb : Cb) (total : Nat) (path : List String)
    (cs : FsList) :
    ∀ st, CallsOk st → CallsOk (outSt (delFiles cb total path cs st)) ∧
      st.bytes ≤ (outSt (delFiles cb total path cs st)).bytes := by
  induction cs using fsList_ind with
  | h0 => intro st h; exact ⟨h, le_refl _⟩
  | h1 n e tl ih =>
    intro st h
    cases e with
    | file sz sOk uOk =>
      cases cb with
      | none =>
        simp only [delFiles]
        split_ifs with hdel
        · have h1 : CallsOk ⟨st.bytes + sz, st.errs, st.calls⟩ :=
            h.grow (Nat.le_add_right _ _) _
          obtain ⟨hA, hB⟩ := ih ⟨st.bytes + sz, st.errs, st.calls⟩ h1
          exact ⟨hA, (Nat.le_add_right _ _).trans hB⟩
        · have h1 : CallsOk ⟨st.bytes,
              st.errs ++ ["Error deleting file " ++ joinPath (path ++ [n])],
              st.calls⟩ := h.relabel _
          obtain ⟨hA, hB⟩ := ih _ h1
          cases hrec : delFiles none total path tl ⟨st.bytes,
              st.errs ++ ["Error deleting file " ++ joinPath (path ++ [n])],
              st.calls⟩ with
          | ok v => rw [hrec] at hA hB; exact ⟨hA, hB⟩
          | error v => rw [hrec] at hA hB; exact ⟨hA, hB⟩
      | some f =>
        simp only [delFiles]
        split_ifs with hdel
        · have h1 : CallsOk ⟨st.bytes + sz, st.errs,
              st.calls ++ [(st.bytes + sz, total)]⟩ :=
            h.push (Nat.le_add_right _ _) _
          cases hf : f (st.bytes + sz) total with
          | some m => exact ⟨h1, Nat.le_add_right _ _⟩
          | none =>
            obtain ⟨hA, hB⟩ := ih _ h1
            exact ⟨hA, (Nat.le_add_right _ _).trans hB⟩
        · have h1 : CallsOk ⟨st.bytes,
              st.errs ++ ["Error deleting file " ++ joinPath (path ++ [n])],
              st.calls⟩ := h.relabel _
          obtain ⟨hA, hB⟩ := ih _ h1
          cases hrec : delFiles (some f) total path tl ⟨st.bytes,
              st.errs ++ ["Error deleting file " ++ joinPath (path ++ [n])],
              st.calls⟩ with
          | ok v => rw [hrec] at hA hB; exact ⟨hA, hB⟩
          | error v => rw [hrec] at hA hB; exact ⟨hA, hB⟩
    | dir cs2 w2 r2 =>
      obtain ⟨hA, hB⟩ := ih st h
      simp only [delFiles]
      cases hrec : delFiles cb total path tl st with
      | ok v => rw [hrec] at hA hB; exact ⟨hA, hB⟩
      | error v => rw [hrec] at hA hB; exact ⟨hA, hB⟩

theorem delRmdirs_state (path : List String) (cs : FsList) :
    ∀ st, (delRmdirs path cs st).2.bytes = st.bytes ∧
      (delRmdirs path cs st).2.calls = st.calls := by
  induction cs using fsList_ind with
  | h0 => intro st; exact ⟨rfl, rfl⟩
  | h1 n e tl ih =>
    intro st
    cases e with
    | file sz sOk uOk => exact ih st
    | dir cs2 w2 r2 =>
      simp only [delRmdirs]
      split_ifs with hok
      · exact ih st
      · exact ih ⟨st.bytes,
          st.errs ++ ["Error deleting directory " ++ joinPath (path ++ [n])],
          st.calls⟩

theorem delWalk_callsOk (cb : Cb) (total : Nat) :
    (∀ e, ∀ path st, CallsOk st →
      CallsOk (outSt (delWalkE cb total path e st)) ∧
        st.bytes ≤ (outSt (delWalkE cb total path e st)).bytes) ∧
    (∀ cs, ∀ path st, CallsOk st →
      CallsOk (outSt (delSubdirs cb total path cs st)) ∧
        st.bytes ≤ (outSt (delSubdirs cb total path cs st)).bytes) :=
  fs_mutual_ind _ _
    (fun sz sOk uOk path st h => ⟨h, le_refl _⟩)
    (fun cs w r ih path st h => by
      by_cases hw : w = true
      · cases hsub : delSubdirs cb total path cs st with
        | error v =>
          obtain ⟨m, cs', st'⟩ := v
          obtain ⟨hA, hB⟩ := ih path st h
          rw [hsub] at hA hB
          simp only [outSt] at hA hB
          have hE : delWalkE cb total path (.dir cs w r) st =
              .error (m, .dir cs' w r, st') := by
            simp only [delWalkE, if_pos hw, hsub]
          rw [hE]
          exact ⟨hA, hB⟩
        | ok v =>
          obtain ⟨cs1, st1⟩ := v
          obtain ⟨hA, hB⟩ := ih path st h
          rw [hsub] at hA hB
          simp only [outSt] at hA hB
          cases hf : delFiles cb total path cs1 st1 with
          | error v2 =>
            obtain ⟨m, cs', st'⟩ := v2
            obtain ⟨hA2, hB2⟩ := delFiles_callsOk cb total path cs1 st1 hA
            rw [hf] at hA2 hB2
            simp only [outSt] at hA2 hB2
            have hE : delWalkE cb total path (.dir cs w r) st =
                .error (m, .dir cs' w r, st') := by
              simp only [delWalkE, if_pos hw, hsub, hf]
            rw [hE]
            exact ⟨hA2, hB.trans hB2⟩
          | ok v2 =>
            obtain ⟨cs2, st2⟩ := v2
            obtain ⟨hA2, hB2⟩ := delFiles_callsOk cb total path cs1 st1 hA
            rw [hf] at hA2 hB2
            simp only [outSt] at hA2 hB2
            have hE : delWalkE cb total path (.dir cs w r) st =
                .ok (.dir (delRmdirs path cs2 st2).1 w r,
                  (delRmdirs path cs2 st2).2) := by
              simp only [delWalkE, if_pos hw, hsub, hf]
            rw [hE]
            obtain ⟨hby, hca⟩ := delRmdirs_state path cs2 st2
            simp only [outSt]
            refine ⟨⟨?_, ?_⟩, ?_⟩
            · rw [hca]; exact hA2.1
            · intro c hc
              rw [hca] at hc
              rw [hby]
              exact hA2.2 c hc
            · rw [hby]; exact hB.trans hB2
      · have hE : delWalkE cb total path (.dir cs w r) st =
            .ok (.dir cs w r, st) := by
          simp only [delWalkE, if_neg hw]
        rw [hE]
        exact ⟨h, le_refl _⟩)
    (fun path st h => ⟨h, le_refl _⟩)
    (fun n e tl ihe ihl path st h => by
      cases hw : delWalkE cb total (path ++ [n]) e st with
      | error v =>
        obtain ⟨m, e', st'⟩ := v
        obtain ⟨hA, hB⟩ := ihe (path ++ [n]) st h
        rw [hw] at hA hB
        simp only [outSt] at hA hB
        have hE : delSubdirs cb total path (.cons n e tl) st =
            .error (m, .cons n e' tl, st') := by
          simp only [delSubdirs, hw]
        rw [hE]
        exact ⟨hA, hB⟩
      | ok v =>
        obtain ⟨e', st'⟩ := v
        obtain ⟨hA, hB⟩ := ihe (path ++ [n]) st h
        rw [hw] at hA hB
        simp only [outSt] at hA hB
        cases hs : delSubdirs cb total path tl st' with
        | error v2 =>
          obtain ⟨m, tl', st''⟩ := v2
          obtain ⟨hA2, hB2⟩ := ihl path st' hA
          rw [hs] at hA2 hB2
          simp only [outSt] at hA2 hB2
          have hE : delSubdirs cb total path (.cons n e tl) st =
              .error (m, .cons n e' tl', st'') := by
            simp only [delSubdirs, hw, hs]
          rw [hE]
          exact ⟨hA2, hB.trans hB2⟩
        | ok v2 =>
          obtain ⟨tl', st''⟩ := v2
          obtain ⟨hA2, hB2⟩ := ihl path st' hA
          rw [hs] at hA2 hB2
          simp only [outSt] at hA2 hB2
          have hE : delSubdirs cb total path (.cons n e tl) st =
              .ok (.cons n e' tl', st'') := by
            simp only [delSubdirs, hw, hs]
          rw [hE]
          exact ⟨hA2, hB.trans hB2⟩)

/-- C9: within a single `safe_delete_venv` call, the `bytes_done`
values passed to successive progress-callback invocations form a
monotonically non-decreasing sequence. -/
theorem deletion_progress_monotone (root : Option FsEntry) (cb : Cb)
    (p : List String) :
    (safe_delete_venv root cb p).calls.Chain' (fun a b => a.1 ≤ b.1) := by
  cases root with
  | none => exact List.chain'_nil
  | some e =>
    by_cases hd : isDirE e = true
    · cases hE : delWalkE cb (sizeWalk e) p e ⟨0, [], []⟩ with
      | error v =>
        obtain ⟨m, e', st⟩ := v
        have hthis := ((delWalk_callsOk cb (sizeWalk e)).1 e p ⟨0, [], []⟩
          CallsOk.init).1
        rw [hE] at hthis
        simp only [outSt] at hthis
        have hcalls : (safe_delete_venv (some e) cb p).calls = st.calls := by
          simp only [safe_delete_venv, if_pos hd, hE]
        rw [hcalls]
        exact hthis.1
      | ok v =>
        obtain ⟨e', st⟩ := v
        have hthis := ((delWalk_callsOk cb (sizeWalk e)).1 e p ⟨0, [], []⟩
          CallsOk.init).1
        rw [hE] at hthis
        simp only [outSt] at hthis
        have hcalls : (safe_delete_venv (some e) cb p).calls = st.calls := by
          simp only [safe_delete_venv, if_pos hd, hE]
          split_ifs <;> rfl
        rw [hcalls]
        exact hthis.1
    · have hcalls : (safe_delete_venv (some e) cb p).calls = [] := by
        simp only [safe_delete_venv, if_neg hd]
      rw [hcalls]
      exact List.chain'_nil

/-! ## C2: deletion completeness and byte accounting -/

/-- The statable sizes of the file children of one listing. -/
def fileSizes : FsList → Nat
  | .nil => 0
  | .cons _ e tl =>
    (match e with
     | .file sz sOk _ => if sOk then sz else 0
     | .dir _ _ _ => 0) + fileSizes tl

/-- The walk sizes of the directory children of one listing. -/
def dirSizes : FsList → Nat
  | .nil => 0
  | .cons _ e tl =>
    (match e with
     | .file _ _ _ => 0
     | .dir _ _ _ => sizeWalk e) + dirSizes tl

theorem sizeList_split (cs : FsList) :
    sizeList cs = fileSizes cs + dirSizes cs := by
  induction cs using fsList_ind with
  | h0 => rfl
  | h1 n e tl ih =>
    cases e <;> simp only [sizeList, fileSizes, dirSizes, ih] <;> omega

/-- The file loop frees at most the statable bytes of the listing's file
children. -/
theorem delFiles_bytes (cb : Cb) (total : Nat) (path : List String)
    (cs : FsList) :
    ∀ st, (outSt (delFiles cb total path cs st)).bytes ≤
      st.bytes + fileSizes cs := by
  induction cs using fsList_ind with
  | h0 => intro st; simp [delFiles, outSt, fileSizes]
  | h1 n e tl ih =>
    intro st
    cases e with
    | file sz sOk uOk =>
      by_cases hdel : (sOk && uOk) = true
      · have hsOk : sOk = true := by
          simp only [Bool.and_eq_true] at hdel
          exact hdel.1
        have hfs : fileSizes (.cons n (.file sz sOk uOk) tl) =
            sz + fileSizes tl := by
          simp only [fileSizes, if_pos hsOk]
        rw [hfs]
        cases cb with
        | none =>
          have hE : delFiles none total path
              (.cons n (.file sz sOk uOk) tl) st =
              delFiles none total path tl ⟨st.bytes + sz, st.errs, st.calls⟩ := by
            simp only [delFiles, if_pos hdel]
          rw [hE]
          have hrec := ih ⟨st.bytes + sz, st.errs, st.calls⟩
          simp only at hrec
          omega
        | some f =>
          cases hf : f (st.bytes + sz) total with
          | some m =>
            have hE : delFiles (some f) total path
                (.cons n (.file sz sOk uOk) tl) st =
                .error (m, tl, ⟨st.bytes + sz, st.errs,
                  st.calls ++ [(st.bytes + sz, total)]⟩) := by
              simp only [delFiles, if_pos hdel, hf]
            rw [hE]
            simp only [outSt]
            omega
          | none =>
            have hE : delFiles (some f) total path
                (.cons n (.file sz sOk uOk) tl) st =
                delFiles (some f) total path tl ⟨st.bytes + sz, st.errs,
                  st.calls ++ [(st.bytes + sz, total)]⟩ := by
              simp only [delFiles, if_pos hdel, hf]
            rw [hE]
            have hrec := ih ⟨st.bytes + sz, st.errs,
              st.calls ++ [(st.bytes + sz, total)]⟩
            simp only at hrec
            omega
      · have hE : delFiles cb total path (.cons n (.file sz sOk uOk) tl) st =
            (match delFiles cb total path tl ⟨st.bytes,
                st.errs ++ ["Error deleting file " ++ joinPath (path ++ [n])],
                st.calls⟩ with
             | .ok (tl', st') => .ok (.cons n (.file sz sOk uOk) tl', st')
             | .error (m, tl', st') =>
               .error (m, .cons n (.file sz sOk uOk) tl', st')) := by
          cases cb <;> simp only [delFiles, if_neg hdel]
        rw [hE]
        have hrec := ih ⟨st.bytes,
          st.errs ++ ["Error deleting file " ++ joinPath (path ++ [n])],
          st.calls⟩
        cases hr : delFiles cb total path tl ⟨st.bytes,
            st.errs ++ ["Error deleting file " ++ joinPath (path ++ [n])],
            st.calls⟩ with
        | ok v =>
          obtain ⟨tl', st'⟩ := v
          rw [hr] at hrec
          simp only [outSt] at hrec ⊢
          simp only [fileSizes]
          omega
        | error v =>
          obtain ⟨m, tl', st'⟩ := v
          rw [hr] at hrec
          simp only [outSt] at hrec ⊢
          simp only [fileSizes]
          omega
    | dir cs2 w2 r2 =>
      have hE : delFiles cb total path (.cons n (.dir cs2 w2 r2) tl) st =
          (match delFiles cb total path tl st with
           | .ok (tl', st') => .ok (.cons n (.dir cs2 w2 r2) tl', st')
           | .error (m, tl', st') =>
             .error (m, .cons n (.dir cs2 w2 r2) tl', st')) := by
        cases cb <;> simp only [delFiles]
      rw [hE]
      have hrec := ih st
      cases hr : delFiles cb total path tl st with
      | ok v =>
        obtain ⟨tl', st'⟩ := v
        rw [hr] at hrec
        simp only [outSt] at hrec ⊢
        simp only [fileSizes]
        omega
      | error v =>
        obtain ⟨m, tl', st'⟩ := v
        rw [hr] at hrec
        simp only [outSt] at hrec ⊢
        simp only [fileSizes]
        omega

/-- A successful walk of a directory entry yields a directory with the
same flags. -/
theorem delWalkE_ok_dir (cb : Cb) (total : Nat) (path : List String)
    (cs : FsList) (w r : Bool) (st : DelState) (e' : FsEntry) (st' : DelState)
    (h : delWalkE cb total path (.dir cs w r) st = .ok (e', st')) :
    ∃ cs', e' = .dir cs' w r := by
  by_cases hw : w = true
  · cases hsub : delSubdirs cb total path cs st with
    | error v =>
      obtain ⟨m, cs', stE⟩ := v
      rw [show delWalkE cb total path (.dir cs w r) st =
        .error (m, .dir cs' w r, stE) by simp only [delWalkE, if_pos hw, hsub]]
        at h
      exact absurd h (by simp)
    | ok v =>
      obtain ⟨cs1, st1⟩ := v
      cases hf : delFiles cb total path cs1 st1 with
      | error v2 =>
        obtain ⟨m, cs', stE⟩ := v2
        rw [show delWalkE cb total path (.dir cs w r) st =
          .error (m, .dir cs' w r, stE) by
            simp only [delWalkE, if_pos hw, hsub, hf]] at h
        exact absurd h (by simp)
      | ok v2 =>
        obtain ⟨cs2, st2⟩ := v2
        rw [show delWalkE cb total path (.dir cs w r) st =
          .ok (.dir (delRmdirs path cs2 st2).1 w r, (delRmdirs path cs2 st2).2)
          by simp only [delWalkE, if_pos hw, hsub, hf]] at h
        simp only [Except.ok.injEq, Prod.mk.injEq] at h
        exact ⟨(delRmdirs path cs2 st2).1, h.1.symm⟩
  · rw [show delWalkE cb total path (.dir cs w r) st = .ok (.dir cs w r, st)
      by simp only [delWalkE, if_neg hw]] at h
    simp only [Except.ok.injEq, Prod.mk.injEq] at h
    exact ⟨cs, h.1.symm⟩

/-- The subdirectory pass leaves the file children (and their statable
sizes) untouched. -/
theorem delSubdirs_fileSizes (cb : Cb) (total : Nat) (path : List String)
    (cs : FsList) :
    ∀ st cs1 st1, delSubdirs cb total path cs st = .ok (cs1, st1) →
      fileSizes cs1 = fileSizes cs := by
  induction cs using fsList_ind with
  | h0 =>
    intro st cs1 st1 h
    simp only [delSubdirs, Except.ok.injEq, Prod.mk.injEq] at h
    rw [← h.1]
  | h1 n e tl ih =>
    intro st cs1 st1 h
    cases hw : delWalkE cb total (path ++ [n]) e st with
    | error v =>
      obtain ⟨m, e', stE⟩ := v
      rw [show delSubdirs cb total path (.cons n e tl) st =
        .error (m, .cons n e' tl, stE) by simp only [delSubdirs, hw]] at h
      exact absurd h (by simp)
    | ok v =>
      obtain ⟨e', st'⟩ := v
      cases hs : delSubdirs cb total path tl st' with
      | error v2 =>
        obtain ⟨m, tl', stE⟩ := v2
        rw [show delSubdirs cb total path (.cons n e tl) st =
          .error (m, .cons n e' tl', stE) by simp only [delSubdirs, hw, hs]]
          at h
        exact absurd h (by simp)
      | ok v2 =>
        obtain ⟨tl', st''⟩ := v2
        rw [show delSubdirs cb total path (.cons n e tl) st =
          .ok (.cons n e' tl', st'') by simp only [delSubdirs, hw, hs]] at h
        simp only [Except.ok.injEq, Prod.mk.injEq] at h
        rw [← h.1]
        have htl := ih st' tl' st'' hs
        cases e with
        | file sz sOk uOk =>
          have : e' = FsEntry.file sz sOk uOk := by
            have : delWalkE cb total (path ++ [n]) (.file sz sOk uOk) st =
                .ok (.file sz sOk uOk, st) := rfl
            rw [this] at hw
            simp only [Except.ok.injEq, Prod.mk.injEq] at hw
            exact hw.1.symm
          subst this
          simp only [fileSizes, htl]
        | dir cs2 w2 r2 =>
          obtain ⟨cs', hcs'⟩ := delWalkE_ok_dir cb total (path ++ [n])
            cs2 w2 r2 st e' st' hw
          subst hcs'
          simp only [fileSizes, htl]

/-- The deletion walk never frees more bytes than the best-effort size
pre-walk computed for the subtree. -/
theorem delWalk_bytes (cb : Cb) (total : Nat) :
    (∀ e, ∀ path st, (outSt (delWalkE cb total path e st)).bytes ≤
      st.bytes + sizeWalk e) ∧
    (∀ cs, ∀ path st, (outSt (delSubdirs cb total path cs st)).bytes ≤
      st.bytes + dirSizes cs) :=
  fs_mutual_ind _ _
    (fun sz sOk uOk path st => by simp [delWalkE, outSt, sizeWalk])
    (fun cs w r ih path st => by
      by_cases hw : w = true
      · cases hsub : delSubdirs cb total path cs st with
        | error v =>
          obtain ⟨m, cs', st'⟩ := v
          have hB := ih path st
          rw [hsub] at hB
          simp only [outSt] at hB
          rw [show delWalkE cb total path (.dir cs w r) st =
            .error (m, .dir cs' w r, st') by
              simp only [delWalkE, if_pos hw, hsub]]
          simp only [outSt, sizeWalk, if_pos hw, sizeList_split]
          omega
        | ok v =>
          obtain ⟨cs1, st1⟩ := v
          have hB := ih path st
          rw [hsub] at hB
          simp only [outSt] at hB
          have hFS := delSubdirs_fileSizes cb total path cs st cs1 st1 hsub
          have hF := delFiles_bytes cb total path cs1 st1
          cases hf : delFiles cb total path cs1 st1 with
          | error v2 =>
            obtain ⟨m, cs', st'⟩ := v2
            rw [hf] at hF
            simp only [outSt] at hF
            rw [show delWalkE cb total path (.dir cs w r) st =
              .error (m, .dir cs' w r, st') by
                simp only [delWalkE, if_pos hw, hsub, hf]]
            simp only [outSt, sizeWalk, if_pos hw, sizeList_split]
            rw [hFS] at hF
            omega
          | ok v2 =>
            obtain ⟨cs2, st2⟩ := v2
            rw [hf] at hF
            simp only [outSt] at hF
            rw [show delWalkE cb total path (.dir cs w r) st =
              .ok (.dir (delRmdirs path cs2 st2).1 w r,
                (delRmdirs path cs2 st2).2) by
                  simp only [delWalkE, if_pos hw, hsub, hf]]
            simp only [outSt, sizeWalk, if_pos hw, sizeList_split]
            obtain ⟨hby, -⟩ := delRmdirs_state path cs2 st2
            rw [hFS] at hF
            omega
      · rw [show delWalkE cb total path (.dir cs w r) st =
          .ok (.dir cs w r, st) by simp only [delWalkE, if_neg hw]]
        simp [outSt, sizeWalk]
    )
    (fun path st => by simp [delSubdirs, outSt, dirSizes])
    (fun n e tl ihe ihl path st => by
      cases hw : delWalkE cb total (path ++ [n]) e st with
      | error v =>
        obtain ⟨m, e', st'⟩ := v
        have hB := ihe (path ++ [n]) st
        rw [hw] at hB
        simp only [outSt] at hB
        rw [show delSubdirs cb total path (.cons n e tl) st =
          .error (m, .cons n e' tl, st') by simp only [delSubdirs, hw]]
        simp only [outSt, dirSizes]
        cases e <;> simp only [sizeWalk, outSt] at hB ⊢ <;> omega
      | ok v =>
        obtain ⟨e', st'⟩ := v
        have hB := ihe (path ++ [n]) st
        rw [hw] at hB
        simp only [outSt] at hB
        have hB2 := ihl path st'
        cases hs : delSubdirs cb total path tl st' with
        | error v2 =>
          obtain ⟨m, tl', st''⟩ := v2
          rw [hs] at hB2
          simp only [outSt] at hB2
          rw [show delSubdirs cb total path (.cons n e tl) st =
            .error (m, .cons n e' tl', st'') by simp only [delSubdirs, hw, hs]]
          simp only [outSt, dirSizes]
          cases e <;> simp only [sizeWalk] at hB ⊢ <;> omega
        | ok v2 =>
          obtain ⟨tl', st''⟩ := v2
          rw [hs] at hB2
          simp only [outSt] at hB2
          rw [show delSubdirs cb total path (.cons n e tl) st =
            .ok (.cons n e' tl', st'') by simp only [delSubdirs, hw, hs]]
          simp only [outSt, dirSizes]
          cases e <;> simp only [sizeWalk] at hB ⊢ <;> omega)

theorem append3_ne_empty (pre mid suf : String) (h : pre.data ≠ []) :
    pre ++ mid ++ suf ≠ "" := by
  intro he
  have hd : pre.data ++ mid.data ++ suf.data = ([] : List Char) :=
    congrArg String.data he
  rcases List.append_eq_nil.mp (List.append_eq_nil.mp hd).1 with ⟨h2, -⟩
  exact h h2

/-- A directory with one deletable and one undeletable file: deletion
reports partial success while the root directory survives. -/
def stubbornDir : FsEntry :=
  .dir (.cons "a" (.file 1 true true) (.cons "b" (.file 1 true false) .nil))
    true true

/-- A directory whose single file deletes cleanly. -/
def cleanDir : FsEntry := .dir (.cons "a" (.file 2 true true) .nil) true true

/-- C2 counterexample: `safe_delete_venv` returns `success = true`
("Partially deleted") although the target directory still exists: one file
could not be unlinked, the root `rmdir` then fails, and the `rmtree`
fallback fails on the same file, yet `bytes_removed > 0` makes the result
a success. -/
theorem partial_success_root_survives :
    (safe_delete_venv (some stubbornDir) none ["v"]).success = true ∧
    (safe_delete_venv (some stubbornDir) none ["v"]).remaining ≠ none := by
  decide

/-- C2 (amended): when `safe_delete_venv` reports success with an empty
detail (no recorded errors), the directory is indeed gone afterwards; and
the bytes it reports freed never exceed the best-effort size computed
before deletion.  (For a partial success — `success = true` with a
"Partially deleted" detail — the directory may survive, per the
counterexample.) -/
theorem safe_delete_clean_success_removes (root : Option FsEntry) (cb : Cb)
    (p : List String)
    (hs : (safe_delete_venv root cb p).success = true)
    (hd : (safe_delete_venv root cb p).detail = "") :
    (safe_delete_venv root cb p).remaining = none ∧
    (safe_delete_venv root cb p).bytes ≤
      (match root with | some e => sizeWalk e | none => 0) := by
  cases root with
  | none => simp [safe_delete_venv] at hs
  | some e =>
    by_cases hdir : isDirE e = true
    · cases hE : delWalkE cb (sizeWalk e) p e ⟨0, [], []⟩ with
      | error v =>
        obtain ⟨m, e', st⟩ := v
        rw [show safe_delete_venv (some e) cb p = ⟨false,
            "Unexpected error during deletion: " ++ m, st.bytes, st.errs,
            some m, st.calls, some e'⟩ by
          simp only [safe_delete_venv, if_pos hdir, hE]] at hs
        exact absurd hs (by simp)
      | ok v =>
        obtain ⟨e', st⟩ := v
        have hbytes : st.bytes ≤ sizeWalk e := by
          have hB := (delWalk_bytes cb (sizeWalk e)).1 e p ⟨0, [], []⟩
          rw [hE] at hB
          simpa [outSt] using hB
        by_cases hg : rootRemovable e' = true
        · have hEq : safe_delete_venv (some e) cb p =
              (if st.errs = [] then
                (⟨true, "", st.bytes, st.errs, none, st.calls, none⟩ :
                  DelOutcome)
              else if 0 < st.bytes then
                ⟨true, "Partially deleted (" ++ toString st.errs.length ++
                  " errors)", st.bytes, st.errs, none, st.calls, none⟩
              else
                ⟨false, renderErrors st.errs, st.bytes, st.errs, none,
                  st.calls, none⟩) := by
            simp only [safe_delete_venv, if_pos hdir, hE, if_pos hg]
          rw [hEq]
          split_ifs <;> exact ⟨rfl, hbytes⟩
        · have hne : st.errs ++
              ["Error deleting root directory: " ++ joinPath p] ≠ [] := by
            simp
          have hEq : safe_delete_venv (some e) cb p =
              (if 0 < st.bytes then
                (⟨true, "Partially deleted (" ++
                  toString (st.errs ++
                    ["Error deleting root directory: " ++ joinPath p]).length
                  ++ " errors)", st.bytes,
                  st.errs ++ ["Error deleting root directory: " ++ joinPath p],
                  none, st.calls, some e'⟩ : DelOutcome)
              else
                ⟨false, renderErrors (st.errs ++
                  ["Error deleting root directory: " ++ joinPath p]),
                  st.bytes,
                  st.errs ++ ["Error deleting root directory: " ++ joinPath p],
                  none, st.calls, some e'⟩) := by
            simp only [safe_delete_venv, if_pos hdir, hE, if_neg hg,
              if_neg hne]
          rw [hEq] at hs hd
          by_cases hb : 0 < st.bytes
          · rw [if_pos hb] at hd
            exact absurd hd
              (append3_ne_empty "Partially deleted (" _ " errors)" (by decide))
          · rw [if_neg hb] at hs
            exact absurd hs (by simp)
    · simp [safe_delete_venv, hdir] at hs

/-- Witness for C2 (amended): a clean deletion removes the directory and
frees no more than the pre-computed size. -/
theorem safe_delete_clean_success_removes_witness :
    ((safe_delete_venv (some cleanDir) none ["v"]).success = true ∧
      (safe_delete_venv (some cleanDir) none ["v"]).detail = "") ∧
    ((safe_delete_venv (some cleanDir) none ["v"]).remaining = none ∧
      (safe_delete_venv (some cleanDir) none ["v"]).bytes ≤ sizeWalk cleanDir) :=
  ⟨⟨by decide, by decide⟩,
    safe_delete_clean_success_removes (some cleanDir) none ["v"]
      (by decide) (by decide)⟩

/-! ## C4: result policy of `safe_delete_venv` -/

/-- C4: the result policy of `safe_delete_venv` on an existing
directory: a caught unexpected exception yields `success = false` with the
generic message (and never propagates — the model function is total);
otherwise recorded errors with some bytes freed yield `success = true`
with a partial-failure detail; recorded errors with no bytes freed yield
`success = false` with the error list truncated to its first three entries
plus an "and N more errors" suffix (`renderErrors`); and no errors yield
`success = true` with an empty detail. -/
theorem safe_delete_result_policy (e : FsEntry) (cb : Cb) (p : List String)
    (hdir : isDirE e = true) :
    (∀ m, (safe_delete_venv (some e) cb p).raised = some m →
      (safe_delete_venv (some e) cb p).success = false ∧
      (safe_delete_venv (some e) cb p).detail =
        "Unexpected error during deletion: " ++ m) ∧
    ((safe_delete_venv (some e) cb p).raised = none →
      (safe_delete_venv (some e) cb p).errs ≠ [] →
      0 < (safe_delete_venv (some e) cb p).bytes →
      (safe_delete_venv (some e) cb p).success = true ∧
      (safe_delete_venv (some e) cb p).detail =
        "Partially deleted (" ++
          toString (safe_delete_venv (some e) cb p).errs.length ++
          " errors)") ∧
    ((safe_delete_venv (some e) cb p).raised = none →
      (safe_delete_venv (some e) cb p).errs ≠ [] →
      (safe_delete_venv (some e) cb p).bytes = 0 →
      (safe_delete_venv (some e) cb p).success = false ∧
      (safe_delete_venv (some e) cb p).detail =
        renderErrors (safe_delete_venv (some e) cb p).errs) ∧
    ((safe_delete_venv (some e) cb p).raised = none →
      (safe_delete_venv (some e) cb p).errs = [] →
      (safe_delete_venv (some e) cb p).success = true ∧
      (safe_delete_venv (some e) cb p).detail = "") := by
  cases hE : delWalkE cb (sizeWalk e) p e ⟨0, [], []⟩ with
  | error v =>
    obtain ⟨m0, e', st⟩ := v
    have hEq : safe_delete_venv (some e) cb p = ⟨false,
        "Unexpected error during deletion: " ++ m0, st.bytes, st.errs,
        some m0, st.calls, some e'⟩ := by
      simp only [safe_delete_venv, if_pos hdir, hE]
    rw [hEq]
    refine ⟨?_, ?_, ?_, ?_⟩
    · intro m hm
      simp only [Option.some.injEq] at hm
      subst hm
      exact ⟨rfl, rfl⟩
    · intro hraised
      exact absurd hraised (by simp)
    · intro hraised
      exact absurd hraised (by simp)
    · intro hraised
      exact absurd hraised (by simp)
  | ok v =>
    obtain ⟨e', st⟩ := v
    have hEq : safe_delete_venv (some e) cb p =
        (if (if rootRemovable e' then st.errs
             else st.errs ++ ["Error deleting root directory: " ++ joinPath p])
            = [] then
          (⟨true, "", st.bytes,
            (if rootRemovable e' then st.errs
             else st.errs ++ ["Error deleting root directory: " ++ joinPath p]),
            none, st.calls,
            (if rootRemovable e' then none else some e')⟩ : DelOutcome)
        else if 0 < st.bytes then
          ⟨true, "Partially deleted (" ++
            toString (if rootRemovable e' then st.errs
              else st.errs ++
                ["Error deleting root directory: " ++ joinPath p]).length ++
            " errors)", st.bytes,
            (if rootRemovable e' then st.errs
             else st.errs ++ ["Error deleting root directory: " ++ joinPath p]),
            none, st.calls,
            (if rootRemovable e' then none else some e')⟩
        else
          ⟨false, renderErrors (if rootRemovable e' then st.errs
              else st.errs ++
                ["Error deleting root directory: " ++ joinPath p]),
            st.bytes,
            (if rootRemovable e' then st.errs
             else st.errs ++ ["Error deleting root directory: " ++ joinPath p]),
            none, st.calls,
            (if rootRemovable e' then none else some e')⟩) := by
      simp only [safe_delete_venv, if_pos hdir, hE]
    rw [hEq]
    by_cases h0 : (if rootRemovable e' then st.errs
        else st.errs ++ ["Error deleting root directory: " ++ joinPath p])
        = []
    · rw [if_pos h0]
      refine ⟨?_, ?_, ?_, ?_⟩
      · intro m hm
        exact absurd hm (by simp)
      · intro _ hne
        exact absurd h0 hne
      · intro _ hne
        exact absurd h0 hne
      · intro _ _
        exact ⟨rfl, rfl⟩
    · rw [if_neg h0]
      by_cases hb : 0 < st.bytes
      · rw [if_pos hb]
        refine ⟨?_, ?_, ?_, ?_⟩
        · intro m hm
          exact absurd hm (by simp)
        · intro _ _ _
          exact ⟨rfl, rfl⟩
        · intro _ _ hb0
          exact absurd (show st.bytes = 0 from hb0) (by omega)
        · intro _ h00
          exact absurd h00 h0
      · rw [if_neg hb]
        refine ⟨?_, ?_, ?_, ?_⟩
        · intro m hm
          exact absurd hm (by simp)
        · intro _ _ hb0
          exact absurd hb0 hb
        · intro _ _ _
          exact ⟨rfl, rfl⟩
        · intro _ h00
          exact absurd h00 h0

/-- Witness for C4 at a concrete partial-failure deletion. -/
theorem safe_delete_result_policy_witness :
    (isDirE stubbornDir = true ∧
      (safe_delete_venv (some stubbornDir) none ["v"]).raised = none ∧
      (safe_delete_venv (some stubbornDir) none ["v"]).errs ≠ [] ∧
      0 < (safe_delete_venv (some stubbornDir) none ["v"]).bytes) ∧
    ((safe_delete_venv (some stubbornDir) none ["v"]).success = true ∧
      (safe_delete_venv (some stubbornDir) none ["v"]).detail =
        "Partially deleted (" ++
          toString (safe_delete_venv (some stubbornDir) none ["v"]).errs.length
          ++ " errors)") :=
  ⟨⟨by decide, by decide, by decide, by decide⟩,
    (safe_delete_result_policy stubbornDir none ["v"] (by decide)).2.1
      (by decide) (by decide) (by decide)⟩

/-! ## C10: zero-size total with a progress callback -/

mutual
/-- The walk of this entry reaches at least one file whose `stat` and
`unlink` both succeed (so the progress callback fires at least once). -/
def hasDeletableFile : FsEntry → Bool
  | .file _ _ _ => false
  | .dir cs w _ => w && hasDeletableL cs
/-- Listing-level: a deletable file child, or a subdirectory whose walk
reaches one. -/
def hasDeletableL : FsList → Bool
  | .nil => false
  | .cons _ e tl =>
    (match e with
     | .file _ s u => s && u
     | .dir _ _ _ => hasDeletableFile e) || hasDeletableL tl
end

/-- A deletable file directly in this listing. -/
def hasFileDeletable : FsList → Bool
  | .nil => false
  | .cons _ e tl =>
    (match e with
     | .file _ s u => s && u
     | .dir _ _ _ => false) || hasFileDeletable tl

/-- A subdirectory of this listing whose walk reaches a deletable file. -/
def hasDirDeletable : FsList → Bool
  | .nil => false
  | .cons _ e tl =>
    (match e with
     | .file _ _ _ => false
     | .dir _ _ _ => hasDeletableFile e) || hasDirDeletable tl

theorem hasDeletableL_split (cs : FsList) :
    hasDeletableL cs = (hasFileDeletable cs || hasDirDeletable cs) := by
  induction cs using fsList_ind with
  | h0 => rfl
  | h1 n e tl ih =>
    cases e <;>
      simp only [hasDeletableL, hasFileDeletable, hasDirDeletable, ih] <;>
      cases hasFileDeletable tl <;> cases hasDirDeletable tl <;> simp


/-- Every exception the file loop can raise at `total = 0` with the
orchestrator's wrapper is the `ZeroDivisionError`. -/
theorem delFiles_err_dz (path : List String) (cs : FsList) :
    ∀ st m tl' st', delFiles (some pyWrapperCb) 0 path cs st =
      .error (m, tl', st') → m = "division by zero" := by
  induction cs using fsList_ind with
  | h0 =>
    intro st m tl' st' h
    exact absurd h (by simp [delFiles])
  | h1 n e tl ih =>
    intro st m tl' st' h
    cases e with
    | file sz sOk uOk =>
      by_cases hdel : (sOk && uOk) = true
      · rw [show delFiles (some pyWrapperCb) 0 path
            (.cons n (.file sz sOk uOk) tl) st =
            .error ("division by zero", tl, ⟨st.bytes + sz, st.errs,
              st.calls ++ [(st.bytes + sz, 0)]⟩) by
          simp [delFiles, hdel, pyWrapperCb]] at h
        simp only [Except.error.injEq, Prod.mk.injEq] at h
        exact h.1.symm
      · rw [show delFiles (some pyWrapperCb) 0 path
            (.cons n (.file sz sOk uOk) tl) st =
            (match delFiles (some pyWrapperCb) 0 path tl ⟨st.bytes,
                st.errs ++ ["Error deleting file " ++ joinPath (path ++ [n])],
                st.calls⟩ with
             | .ok (tl', st') => .ok (.cons n (.file sz sOk uOk) tl', st')
             | .error (m, tl', st') =>
               .error (m, .cons n (.file sz sOk uOk) tl', st')) by
          simp only [delFiles, if_neg hdel]] at h
        cases hr : delFiles (some pyWrapperCb) 0 path tl ⟨st.bytes,
            st.errs ++ ["Error deleting file " ++ joinPath (path ++ [n])],
            st.calls⟩ with
        | ok v => rw [hr] at h; exact absurd h (by simp)
        | error v =>
          obtain ⟨m2, tl2, st2⟩ := v
          rw [hr] at h
          simp only [Except.error.injEq, Prod.mk.injEq] at h
          exact h.1 ▸ ih _ m2 tl2 st2 hr
    | dir cs2 w2 r2 =>
      rw [show delFiles (some pyWrapperCb) 0 path
          (.cons n (.dir cs2 w2 r2) tl) st =
          (match delFiles (some pyWrapperCb) 0 path tl st with
           | .ok (tl', st') => .ok (.cons n (.dir cs2 w2 r2) tl', st')
           | .error (m, tl', st') =>
             .error (m, .cons n (.dir cs2 w2 r2) tl', st')) by
        simp only [delFiles]] at h
      cases hr : delFiles (some pyWrapperCb) 0 path tl st with
      | ok v => rw [hr] at h; exact absurd h (by simp)
      | error v =>
        obtain ⟨m2, tl2, st2⟩ := v
        rw [hr] at h
        simp only [Except.error.injEq, Prod.mk.injEq] at h
        exact h.1 ▸ ih st m2 tl2 st2 hr

/-- Every exception the walk can raise at `total = 0` with the wrapper is
the `ZeroDivisionError` (jointly for entries and listings). -/
theorem delWalk_err_dz :
    (∀ e, ∀ path st m e' st', delWalkE (some pyWrapperCb) 0 path e st =
      .error (m, e', st') → m = "division by zero") ∧
    (∀ cs, ∀ path st m cs' st', delSubdirs (some pyWrapperCb) 0 path cs st =
      .error (m, cs', st') → m = "division by zero") :=
  fs_mutual_ind _ _
    (fun sz sOk uOk path st m e' st' h => absurd h (by simp [delWalkE]))
    (fun cs w r ih path st m e' st' h => by
      by_cases hw : w = true
      · cases hsub : delSubdirs (some pyWrapperCb) 0 path cs st with
        | error v =>
          obtain ⟨m2, cs2, st2⟩ := v
          rw [show delWalkE (some pyWrapperCb) 0 path (.dir cs w r) st =
            .error (m2, .dir cs2 w r, st2) by
              simp only [delWalkE, if_pos hw, hsub]] at h
          simp only [Except.error.injEq, Prod.mk.injEq] at h
          exact h.1 ▸ ih path st m2 cs2 st2 hsub
        | ok v =>
          obtain ⟨cs1, st1⟩ := v
          cases hf : delFiles (some pyWrapperCb) 0 path cs1 st1 with
          | error v2 =>
            obtain ⟨m2, cs2, st2⟩ := v2
            rw [show delWalkE (some pyWrapperCb) 0 path (.dir cs w r) st =
              .error (m2, .dir cs2 w r, st2) by
                simp only [delWalkE, if_pos hw, hsub, hf]] at h
            simp only [Except.error.injEq, Prod.mk.injEq] at h
            exact h.1 ▸ delFiles_err_dz path cs1 st1 m2 cs2 st2 hf
          | ok v2 =>
            obtain ⟨cs2, st2⟩ := v2
            rw [show delWalkE (some pyWrapperCb) 0 path (.dir cs w r) st =
              .ok (.dir (delRmdirs path cs2 st2).1 w r,
                (delRmdirs path cs2 st2).2) by
                  simp only [delWalkE, if_pos hw, hsub, hf]] at h
            exact absurd h (by simp)
      · rw [show delWalkE (some pyWrapperCb) 0 path (.dir cs w r) st =
          .ok (.dir cs w r, st) by simp only [delWalkE, if_neg hw]] at h
        exact absurd h (by simp))
    (fun path st m cs' st' h => absurd h (by simp [delSubdirs]))
    (fun n e tl ihe ihl path st m cs' st' h => by
      cases hw : delWalkE (some pyWrapperCb) 0 (path ++ [n]) e st with
      | error v =>
        obtain ⟨m2, e2, st2⟩ := v
        rw [show delSubdirs (some pyWrapperCb) 0 path (.cons n e tl) st =
          .error (m2, .cons n e2 tl, st2) by
            simp only [delSubdirs, hw]] at h
        simp only [Except.error.injEq, Prod.mk.injEq] at h
        exact h.1 ▸ ihe (path ++ [n]) st m2 e2 st2 hw
      | ok v =>
        obtain ⟨e2, st2⟩ := v
        cases hs : delSubdirs (some pyWrapperCb) 0 path tl st2 with
        | error v2 =>
          obtain ⟨m3, tl3, st3⟩ := v2
          rw [show delSubdirs (some pyWrapperCb) 0 path (.cons n e tl) st =
            .error (m3, .cons n e2 tl3, st3) by
              simp only [delSubdirs, hw, hs]] at h
          simp only [Except.error.injEq, Prod.mk.injEq] at h
          exact h.1 ▸ ihl path st2 m3 tl3 st3 hs
        | ok v2 =>
          obtain ⟨tl3, st3⟩ := v2
          rw [show delSubdirs (some pyWrapperCb) 0 path (.cons n e tl) st =
            .ok (.cons n e2 tl3, st3) by simp only [delSubdirs, hw, hs]] at h
          exact absurd h (by simp))

/-- The subdirectory pass leaves direct file children untouched, so a
directly deletable file survives it. -/
theorem delSubdirs_hasFileDel (cb : Cb) (total : Nat) (path : List String)
    (cs : FsList) :
    ∀ st cs1 st1, delSubdirs cb total path cs st = .ok (cs1, st1) →
      hasFileDeletable cs1 = hasFileDeletable cs := by
  induction cs using fsList_ind with
  | h0 =>
    intro st cs1 st1 h
    simp only [delSubdirs, Except.ok.injEq, Prod.mk.injEq] at h
    rw [← h.1]
  | h1 n e tl ih =>
    intro st cs1 st1 h
    cases hw : delWalkE cb total (path ++ [n]) e st with
    | error v =>
      obtain ⟨m, e', stE⟩ := v
      rw [show delSubdirs cb total path (.cons n e tl) st =
        .error (m, .cons n e' tl, stE) by simp only [delSubdirs, hw]] at h
      exact absurd h (by simp)
    | ok v =>
      obtain ⟨e', st'⟩ := v
      cases hs : delSubdirs cb total path tl st' with
      | error v2 =>
        obtain ⟨m, tl', stE⟩ := v2
        rw [show delSubdirs cb total path (.cons n e tl) st =
          .error (m, .cons n e' tl', stE) by simp only [delSubdirs, hw, hs]]
          at h
        exact absurd h (by simp)
      | ok v2 =>
        obtain ⟨tl', st''⟩ := v2
        rw [show delSubdirs cb total path (.cons n e tl) st =
          .ok (.cons n e' tl', st'') by simp only [delSubdirs, hw, hs]] at h
        simp only [Except.ok.injEq, Prod.mk.injEq] at h
        rw [← h.1]
        have htl := ih st' tl' st'' hs
        cases e with
        | file sz sOk uOk =>
          have he' : e' = FsEntry.file sz sOk uOk := by
            have hred : delWalkE cb total (path ++ [n]) (.file sz sOk uOk) st =
                .ok (.file sz sOk uOk, st) := rfl
            rw [hred] at hw
            simp only [Except.ok.injEq, Prod.mk.injEq] at hw
            exact hw.1.symm
          subst he'
          simp only [hasFileDeletable, htl]
        | dir cs2 w2 r2 =>
          obtain ⟨cs', hcs'⟩ := delWalkE_ok_dir cb total (path ++ [n])
            cs2 w2 r2 st e' st' hw
          subst hcs'
          simp only [hasFileDeletable, htl]

/-- A directly deletable file in the listing forces the file loop to raise
the wrapper's `ZeroDivisionError` at `total = 0`. -/
theorem delFiles_hits_dz (path : List String) (cs : FsList) :
    ∀ st, hasFileDeletable cs = true →
      ∃ tl' st', delFiles (some pyWrapperCb) 0 path cs st =
        .error ("division by zero", tl', st') := by
  induction cs using fsList_ind with
  | h0 => intro st h; exact absurd h (by simp [hasFileDeletable])
  | h1 n e tl ih =>
    intro st h
    cases e with
    | file sz sOk uOk =>
      by_cases hdel : (sOk && uOk) = true
      · exact ⟨tl, ⟨st.bytes + sz, st.errs, st.calls ++ [(st.bytes + sz, 0)]⟩,
          by simp [delFiles, hdel, pyWrapperCb]⟩
      · have htl : hasFileDeletable tl = true := by
          simp only [hasFileDeletable, Bool.or_eq_true] at h
          rcases h with h | h
          · exact absurd h hdel
          · exact h
        obtain ⟨tl', st', hrec⟩ := ih ⟨st.bytes,
          st.errs ++ ["Error deleting file " ++ joinPath (path ++ [n])],
          st.calls⟩ htl
        refine ⟨.cons n (.file sz sOk uOk) tl', st', ?_⟩
        rw [show delFiles (some pyWrapperCb) 0 path
            (.cons n (.file sz sOk uOk) tl) st =
            (match delFiles (some pyWrapperCb) 0 path tl ⟨st.bytes,
                st.errs ++ ["Error deleting file " ++ joinPath (path ++ [n])],
                st.calls⟩ with
             | .ok (tl', st') => .ok (.cons n (.file sz sOk uOk) tl', st')
             | .error (m, tl', st') =>
               .error (m, .cons n (.file sz sOk uOk) tl', st')) by
          simp only [delFiles, if_neg hdel]]
        rw [hrec]
    | dir cs2 w2 r2 =>
      have htl : hasFileDeletable tl = true := by
        simp only [hasFileDeletable, Bool.or_eq_true] at h
        rcases h with h | h
        · exact absurd h (by simp)
        · exact h
      obtain ⟨tl', st', hrec⟩ := ih st htl
      refine ⟨.cons n (.dir cs2 w2 r2) tl', st', ?_⟩
      rw [show delFiles (some pyWrapperCb) 0 path
          (.cons n (.dir cs2 w2 r2) tl) st =
          (match delFiles (some pyWrapperCb) 0 path tl st with
           | .ok (tl', st') => .ok (.cons n (.dir cs2 w2 r2) tl', st')
           | .error (m, tl', st') =>
             .error (m, .cons n (.dir cs2 w2 r2) tl', st')) by
        simp only [delFiles]]
      rw [hrec]

/-- A reachable deletable file forces the whole walk to raise the
wrapper's `ZeroDivisionError` at `total = 0`. -/
theorem delWalk_hits_dz :
    (∀ e, ∀ path st, hasDeletableFile e = true →
      ∃ e' st', delWalkE (some pyWrapperCb) 0 path e st =
        .error ("division by zero", e', st')) ∧
    (∀ cs, ∀ path st, hasDirDeletable cs = true →
      ∃ cs' st', delSubdirs (some pyWrapperCb) 0 path cs st =
        .error ("division by zero", cs', st')) :=
  fs_mutual_ind _ _
    (fun sz sOk uOk path st h => absurd h (by simp [hasDeletableFile]))
    (fun cs w r ih path st h => by
      simp only [hasDeletableFile, Bool.and_eq_true] at h
      obtain ⟨hw, hL⟩ := h
      cases hsub : delSubdirs (some pyWrapperCb) 0 path cs st with
      | error v =>
        obtain ⟨m, cs2, st2⟩ := v
        have hm := delWalk_err_dz.2 cs path st m cs2 st2 hsub
        subst hm
        exact ⟨.dir cs2 w r, st2, by simp only [delWalkE, if_pos hw, hsub]⟩
      | ok v =>
        obtain ⟨cs1, st1⟩ := v
        have hdd : hasDirDeletable cs = false := by
          by_contra hc
          rw [Bool.not_eq_false] at hc
          obtain ⟨cs2, st2, habs⟩ := ih path st hc
          rw [hsub] at habs
          exact absurd habs (by simp)
        have hfd : hasFileDeletable cs = true := by
          rw [hasDeletableL_split, hdd, Bool.or_false] at hL
          exact hL
        have hfd1 : hasFileDeletable cs1 = true := by
          rw [delSubdirs_hasFileDel (some pyWrapperCb) 0 path cs st cs1 st1 hsub]
          exact hfd
        obtain ⟨tl', st', hf⟩ := delFiles_hits_dz path cs1 st1 hfd1
        exact ⟨.dir tl' w r, st',
          by simp only [delWalkE, if_pos hw, hsub, hf]⟩)
    (fun path st h => absurd h (by simp [hasDirDeletable]))
    (fun n e tl ihe ihl path st h => by
      cases e with
      | file sz sOk uOk =>
        have htl : hasDirDeletable tl = true := by
          simp only [hasDirDeletable, Bool.or_eq_true] at h
          rcases h with h | h
          · exact absurd h (by simp)
          · exact h
        obtain ⟨tl', st', hs⟩ := ihl path st htl
        exact ⟨.cons n (.file sz sOk uOk) tl', st',
          by simp only [delSubdirs, delWalkE, hs]⟩
      | dir cs2 w2 r2 =>
        by_cases hd : hasDeletableFile (.dir cs2 w2 r2) = true
        · obtain ⟨e', st', hwalk⟩ := ihe (path ++ [n]) st hd
          exact ⟨.cons n e' tl, st', by simp only [delSubdirs, hwalk]⟩
        · have htl : hasDirDeletable tl = true := by
            simp only [hasDirDeletable, Bool.or_eq_true] at h
            rcases h with h | h
            · exact absurd h hd
            · exact h
          cases hw : delWalkE (some pyWrapperCb) 0 (path ++ [n])
              (.dir cs2 w2 r2) st with
          | error v =>
            obtain ⟨m, e2, st2⟩ := v
            have hm := delWalk_err_dz.1 (.dir cs2 w2 r2) (path ++ [n]) st
              m e2 st2 hw
            subst hm
            exact ⟨.cons n e2 tl, st2, by simp only [delSubdirs, hw]⟩
          | ok v =>
            obtain ⟨e2, st2⟩ := v
            obtain ⟨tl', st', hs⟩ := ihl path st2 htl
            exact ⟨.cons n e2 tl', st', by simp only [delSubdirs, hw, hs]⟩)

/-- C10: with a progress callback installed, a path whose best-effort
pre-deletion total is zero but which contains at least one deletable file
makes the per-path wrapper divide `bytes_done` by the zero total on the
first successful unlink; the `ZeroDivisionError` propagates out of the
walk, `safe_delete_venv`'s outer handler converts it to the generic
unexpected-error failure, and the batch reports the path as failed even
though its files were being deleted. -/
theorem zero_total_progress_zerodiv (p : List String) (e : FsEntry)
    (hdir : isDirE e = true) (hsz : sizeWalk e = 0)
    (hdel : hasDeletableFile e = true) :
    delete_multiple_venvs [(p, some e)] true =
      ⟨0, 0, [(p, "Unexpected error during deletion: division by zero")]⟩ := by
  obtain ⟨e', st', hE⟩ := delWalk_hits_dz.1 e p ⟨0, [], []⟩ hdel
  have hsd : safe_delete_venv (some e) (some pyWrapperCb) p =
      ⟨false, "Unexpected error during deletion: division by zero", st'.bytes,
        st'.errs, some "division by zero", st'.calls, some e'⟩ := by
    simp [safe_delete_venv, if_pos hdir, hsz, hE]
  simp [delete_multiple_venvs, deleteLoop, hsd]

/-- Witness for C10: a directory holding one zero-byte deletable file. -/
def zeroFileDir : FsEntry := .dir (.cons "a" (.file 0 true true) .nil) true true

theorem zero_total_progress_zerodiv_witness :
    (isDirE zeroFileDir = true ∧ sizeWalk zeroFileDir = 0 ∧
      hasDeletableFile zeroFileDir = true) ∧
    delete_multiple_venvs [(["v"], some zeroFileDir)] true =
      ⟨0, 0, [(["v"], "Unexpected error during deletion: division by zero")]⟩ :=
  ⟨⟨by decide, by decide, by decide⟩,
    zero_total_progress_zerodiv ["v"] zeroFileDir
      (by decide) (by decide) (by decide)⟩

end Venvkiller
